import Mathlib

/-!
Verification of the prompt-template dependency resolver, reload coordinator and
argument value resolver of the mcp-prompt-engine repository.

The Go sources are shallowly embedded:
  * `walkNodes`, `extractPromptArgumentsFromTemplate`, `lookupTarget`,
    `resolveRef` model `PromptsParser.walkNodes` and
    `PromptsParser.ExtractPromptArgumentsFromTemplate` (prompts parser file);
  * `Node` models the `text/template/parse` node kinds the walker inspects
    (Go interface nil and nil `*parse.ListNode` / `*parse.PipeNode` are both
    `Node.nilNode`; node kinds ignored by the walker's switch — text, dot,
    identifier and string constants — are explicit no-op constructors);
  * `parseMCPArgs`, `handlerData`, `makeMCPHandler`, `loadServerPrompts`,
    `reloadPrompts` model the prompts server file; the template execution
    engine and the JSON decoder of the standard library are external
    collaborators, modelled respectively by a render oracle parameter and by
    `jsonDecode` (a JSON value grammar recogniser);
  * Go `map[string]struct{}` / `map[string]bool` sets are modelled by
    insertion-ordered duplicate-free lists; Go slice `append` on the visited
    path is pure list append (value semantics hold for this use).

Machine strings are Lean `String`s; `strings.ToLower`, `strings.ToUpper` and
`strings.TrimSpace` are modelled on the ASCII range, which covers template
identifiers.
-/

set_option maxHeartbeats 2000000
set_option linter.unusedVariables false
set_option linter.unnecessarySimpa false

namespace MCPPromptEngine

/-! ### String helpers (models of the strings package functions used) -/

/-- Model of the per-character lowering performed by Go strings.ToLower,
restricted to ASCII. -/
def lowerChar (c : Char) : Char :=
  if 'A' ≤ c ∧ c ≤ 'Z' then Char.ofNat (c.toNat + 32) else c

/-- Model of strings.ToLower (ASCII range). -/
def lowerStr (s : String) : String := ⟨s.data.map lowerChar⟩

/-- Model of the per-character uppering performed by Go strings.ToUpper,
restricted to ASCII. -/
def upperChar (c : Char) : Char :=
  if 'a' ≤ c ∧ c ≤ 'z' then Char.ofNat (c.toNat - 32) else c

/-- Model of strings.ToUpper (ASCII range). -/
def upperStr (s : String) : String := ⟨s.data.map upperChar⟩

/-- strings.HasPrefix. -/
def strHasPre (p s : String) : Bool := p.data.isPrefixOf s.data

/-- strings.HasSuffix. -/
def strHasSuf (p s : String) : Bool := p.data.isSuffixOf s.data

/-- strings.TrimPrefix. -/
def strTrimPre (p s : String) : String :=
  if strHasPre p s then ⟨s.data.drop p.data.length⟩ else s

/-- strings.TrimSuffix. -/
def strTrimSuf (p s : String) : String :=
  if strHasSuf p s then ⟨s.data.take (s.data.length - p.data.length)⟩ else s

/-- The whitespace class of Go unicode.IsSpace, restricted to ASCII. -/
def isSpaceChar (c : Char) : Bool :=
  c = ' ' ∨ c = '\t' ∨ c = '\n' ∨ c = '\r' ∨ c = Char.ofNat 11 ∨ c = Char.ofNat 12

/-- Model of strings.TrimSpace (ASCII whitespace). -/
def trimSpace (s : String) : String :=
  ⟨((s.data.dropWhile isSpaceChar).reverse.dropWhile isSpaceChar).reverse⟩

/-- A string made only of whitespace. -/
def isWhitespaceOnly (s : String) : Bool := s.data.all isSpaceChar

/-- The template file extension constant of the repository. -/
def templateExt : String := ".tmpl"

/-- strings.HasSuffix with the template extension. -/
def hasTmplExt (s : String) : Bool := strHasSuf templateExt s

/-- strings.TrimSuffix with the template extension (used for prompt names). -/
def trimExt (s : String) : String := strTrimSuf templateExt s

/-- Does the name start with the underscore marking a non-servable template file? -/
def startsWithUnderscore (s : String) : Bool := strHasPre "_" s

/-- Does the (already lowered) identifier start with the dollar of a template
local variable? -/
def startsWithDollar (s : String) : Bool := strHasPre "$" s

theorem toNat_ofNat_small (n : Nat) (h : n < 55296) : (Char.ofNat n).toNat = n := by
  unfold Char.ofNat
  have hv : n.isValidChar := Or.inl h
  simp only [hv, dite_true]
  rfl

theorem lowerChar_idem (c : Char) : lowerChar (lowerChar c) = lowerChar c := by
  unfold lowerChar
  by_cases h : 'A' ≤ c ∧ c ≤ 'Z'
  · simp only [h, and_self, if_true]
    have h1 : c.toNat ≤ 90 := h.2
    have h2 : 65 ≤ c.toNat := h.1
    have hval : (Char.ofNat (c.toNat + 32)).toNat = c.toNat + 32 :=
      toNat_ofNat_small _ (by omega)
    have hno : ¬ ('A' ≤ Char.ofNat (c.toNat + 32) ∧ Char.ofNat (c.toNat + 32) ≤ 'Z') := by
      intro hc
      have hle : (Char.ofNat (c.toNat + 32)).toNat ≤ 90 := hc.2
      omega
    simp [hno]
  · simp [h]

theorem lowerStr_idem (s : String) : lowerStr (lowerStr s) = lowerStr s := by
  unfold lowerStr
  simp [List.map_map, Function.comp_def, lowerChar_idem]

/-! ### The template parse tree

`Node` mirrors the `text/template/parse` node kinds that
`PromptsParser.walkNodes` distinguishes.  Constructors `text`, `dot`,
`identifier` and `stringConst` stand for node kinds the walker's switch
ignores. -/

inductive Node where
  | nilNode
  | text (s : String)
  | dot
  | identifier (s : String)
  | stringConst (s : String)
  | action (pipe : Node)
  | ifNode (pipe : Node) (list : Node) (elseList : Node)
  | rangeNode (pipe : Node) (list : Node) (elseList : Node)
  | withNode (pipe : Node) (list : Node) (elseList : Node)
  | listNode (nodes : List Node)
  | pipeNode (cmds : List Node)
  | command (args : List Node)
  | field (idents : List String)
  | variableNode (idents : List String)
  | templateNode (name : String) (pipe : Node)

mutual

/-- Computable size of a parse tree (used only to bound the walker's fuel). -/
def Node.size : Node → Nat
  | .nilNode => 1
  | .text _ => 1
  | .dot => 1
  | .identifier _ => 1
  | .stringConst _ => 1
  | .action p => 1 + p.size
  | .ifNode p l e => 1 + p.size + l.size + e.size
  | .rangeNode p l e => 1 + p.size + l.size + e.size
  | .withNode p l e => 1 + p.size + l.size + e.size
  | .listNode ns => 1 + Node.sizeList ns
  | .pipeNode ns => 1 + Node.sizeList ns
  | .command ns => 1 + Node.sizeList ns
  | .field _ => 1
  | .variableNode _ => 1
  | .templateNode _ p => 1 + p.size

/-- Size of a list of parse trees. -/
def Node.sizeList : List Node → Nat
  | [] => 0
  | n :: rest => n.size + Node.sizeList rest

end

/-- The set of templates produced by `ParseDir` (via `template.ParseGlob`):
an association of template names — base file names, extension included — to
their parse trees.  Go maps have unique keys; lookup takes the first match. -/
abbrev Tmpl := List (String × Node)

/-- Association-list lookup, modelling Go map indexing (and
`Template.Lookup` for the template set). -/
def alookup {α : Type} : List (String × α) → String → Option α
  | [], _ => none
  | (k, v) :: rest, n => if n = k then some v else alookup rest n

/-- The lookup performed for a `{{template "name"}}` reference inside
`walkNodes` (lines 205-208 of the parser): first the bare name, then — only
when the name does not already carry the extension — the name with the
template extension appended. -/
def resolveRef (tmpl : Tmpl) (name : String) : Option Node :=
  match alookup tmpl name with
  | some b => some b
  | none => if hasTmplExt name then none else alookup tmpl (name ++ templateExt)

/-- The lookup performed by `ExtractPromptArgumentsFromTemplate` for its
target template (lines 84-92 of the parser). -/
def lookupTarget (tmpl : Tmpl) (templateName : String) : Option Node :=
  match alookup tmpl templateName with
  | some t => some t
  | none =>
    if hasTmplExt templateName then none
    else alookup tmpl (templateName ++ templateExt)

/-! ### The walker -/

/-- The mutable state threaded through `walkNodes`: the argument set
(`argsMap`, Go `map[string]struct{}`, modelled as an insertion-ordered
duplicate-free list) and the memo of processed templates
(`processedTemplates`, Go `map[string]bool`, most recent first). -/
structure WalkState where
  argsMap : List String
  processed : List String

/-- Set insertion into the collected argument list. -/
def insertArg (s : List String) (a : String) : List String :=
  if a ∈ s then s else s ++ [a]

/-- The cycle error produced at line 199 of the parser:
`fmt.Errorf("cyclic partial reference detected: %s", strings.Join(chain, " -> "))`. -/
def cycleErrMsg (chain : List String) : String :=
  "cyclic partial reference detected: " ++ String.intercalate " -> " chain

/-- The missing-reference error produced at line 210 of the parser:
`fmt.Errorf("referenced template %q not found in %q", name, tmpl.Name())`,
with `tmpl.Name() = "base"` (the root template created by `ParseDir`). -/
def missingErrMsg (name : String) : String :=
  "referenced template \"" ++ name ++ "\" not found in \"base\""

/-- Embedding artifact: the recursion of `walkNodes` is bounded by a fuel
counter; `extractFuel` below is proved large enough for this error never to
escape `extractPromptArgumentsFromTemplate`. -/
def fuelErrMsg : String := "walk depth limit exceeded"

/-- Shallow embedding of `PromptsParser.walkNodes` (lines 114-219 of the
parser).  The recursion is driven by a fuel counter so that the definition
is structural; every Go recursive call maps to a call at `fuel`. -/
def walkNodes (tmpl : Tmpl) (builtIn : List String) :
    Nat → Node → WalkState → List String → Except String WalkState
  | 0, _, _, _ => .error fuelErrMsg
  | fuel + 1, node, s, path =>
    match node with
    | .action p => walkNodes tmpl builtIn fuel p s path
    | .ifNode p l e => do
      let s1 ← walkNodes tmpl builtIn fuel p s path
      let s2 ← walkNodes tmpl builtIn fuel l s1 path
      walkNodes tmpl builtIn fuel e s2 path
    | .rangeNode p l e => do
      let s1 ← walkNodes tmpl builtIn fuel p s path
      let s2 ← walkNodes tmpl builtIn fuel l s1 path
      walkNodes tmpl builtIn fuel e s2 path
    | .withNode p l e => do
      let s1 ← walkNodes tmpl builtIn fuel p s path
      let s2 ← walkNodes tmpl builtIn fuel l s1 path
      walkNodes tmpl builtIn fuel e s2 path
    | .listNode ns => ns.foldlM (fun st c => walkNodes tmpl builtIn fuel c st path) s
    | .pipeNode cs => cs.foldlM (fun st c => walkNodes tmpl builtIn fuel c st path) s
    | .command as => as.foldlM (fun st c => walkNodes tmpl builtIn fuel c st path) s
    | .field idents =>
      match idents with
      | [] => .ok s
      | i :: _ =>
        let fieldName := lowerStr i
        if fieldName ∈ builtIn then .ok s
        else .ok { s with argsMap := insertArg s.argsMap fieldName }
    | .variableNode idents =>
      match idents with
      | [] => .ok s
      | i :: _ =>
        let fieldName := lowerStr i
        if startsWithDollar fieldName then .ok s
        else if fieldName ∈ builtIn then .ok s
        else .ok { s with argsMap := insertArg s.argsMap fieldName }
    | .templateNode name pipe =>
      if name ∈ path then .error (cycleErrMsg (path ++ [name]))
      else if name ∈ s.processed then
        walkNodes tmpl builtIn fuel pipe s path
      else
        match resolveRef tmpl name with
        | none => .error (missingErrMsg name)
        | some body => do
          let s1 ← walkNodes tmpl builtIn fuel body
            { s with processed := name :: s.processed } (path ++ [name])
          walkNodes tmpl builtIn fuel pipe s1 path
    | _ => .ok s

/-- The names a `{{template "name"}}` reference may resolve to: every key of
the template set and every key stripped of the extension.  Used only to
bound the fuel. -/
def candNames (tmpl : Tmpl) : List String :=
  ((tmpl.map Prod.fst) ++
    (tmpl.map Prod.fst).filterMap
      (fun k => if hasTmplExt k then some (trimExt k) else none)).dedup

/-- The work bound contributed by one yet-unprocessed template name. -/
def refWeight (tmpl : Tmpl) (n : String) : Nat :=
  1 + (match resolveRef tmpl n with | some b => b.size | none => 0)

/-- Upper bound on the walking work left, given the processed set. -/
def remWork (tmpl : Tmpl) (processed : List String) : Nat :=
  (((candNames tmpl).filter (fun n => decide (n ∉ processed))).map
    (refWeight tmpl)).sum

/-- The canonical fuel: enough for a full walk of `node` from an empty state
(proved sufficient below). -/
def extractFuel (tmpl : Tmpl) (node : Node) : Nat :=
  node.size + remWork tmpl [] + 1

/-- The built-in field set of `ExtractPromptArgumentsFromTemplate` (line 95). -/
def builtInFields : List String := ["date"]

/-- Shallow embedding of
`PromptsParser.ExtractPromptArgumentsFromTemplate` (lines 81-110): resolve
the target template, walk it from an empty state, return the collected
argument names. -/
def extractPromptArgumentsFromTemplate (tmpl : Tmpl) (templateName : String) :
    Except String (List String) :=
  match alookup tmpl templateName with
  | some t =>
    (walkNodes tmpl builtInFields (extractFuel tmpl t) t ⟨[], []⟩ []).map
      (fun s => s.argsMap)
  | none =>
    if hasTmplExt templateName then
      .error ("template \"" ++ templateName ++ "\" not found")
    else
      match alookup tmpl (templateName ++ templateExt) with
      | some t =>
        (walkNodes tmpl builtInFields (extractFuel tmpl t) t ⟨[], []⟩ []).map
          (fun s => s.argsMap)
      | none =>
        .error ("template \"" ++ templateName ++ "\" or \"" ++
          templateName ++ templateExt ++ "\" not found")

/-! ### Sanity checks of the embedding on concrete templates -/

/-- The parse tree of `Hello {{.name}}` with a leading comment line. -/
private def exGreeting : Node :=
  .listNode [.text "Hello ", .action (.pipeNode [.command [.field ["name"]]]), .text "."]

example :
    extractPromptArgumentsFromTemplate [("greeting.tmpl", exGreeting)] "greeting" =
      .ok ["name"] := rfl

example :
    extractPromptArgumentsFromTemplate [("greeting.tmpl", exGreeting)] "greeting.tmpl" =
      .ok ["name"] := rfl

example :
    extractPromptArgumentsFromTemplate [("greeting.tmpl", exGreeting)] "nope" =
      .error ("template \"nope\" or \"nope.tmpl\" not found") := rfl

/-- Built-in date filtering and case folding:
`Today is {{.date}} and {{.UserName}} met {{.username}}`. -/
private def exDate : Node :=
  .listNode [.action (.pipeNode [.command [.field ["date"]]]),
    .action (.pipeNode [.command [.field ["UserName"]]]),
    .action (.pipeNode [.command [.field ["username"]]])]

example :
    extractPromptArgumentsFromTemplate [("d.tmpl", exDate)] "d" = .ok ["username"] := rfl

/-- Cyclic partials: `a -> b -> c -> a`, rooted at a prompt calling `_a`. -/
private def exCycleTmpl : Tmpl :=
  [("p.tmpl", .listNode [.templateNode "_a" .dot, .action (.pipeNode [.command [.field ["main"]]])]),
   ("_a.tmpl", .listNode [.action (.pipeNode [.command [.field ["a_var"]]]), .templateNode "_b" .dot]),
   ("_b.tmpl", .listNode [.action (.pipeNode [.command [.field ["b_var"]]]), .templateNode "_c" .dot]),
   ("_c.tmpl", .listNode [.action (.pipeNode [.command [.field ["c_var"]]]), .templateNode "_a" .dot])]

example :
    extractPromptArgumentsFromTemplate exCycleTmpl "p" =
      .error (cycleErrMsg ["_a", "_b", "_c", "_a"]) := rfl

example :
    cycleErrMsg ["_a", "_b", "_c", "_a"] =
      "cyclic partial reference detected: _a -> _b -> _c -> _a" := by decide

/-- Diamond sharing: the prompt uses `_left` and `_right`, both of which use
`_shared`; the shared variable is collected once and no cycle is reported. -/
private def exDiamondTmpl : Tmpl :=
  [("p.tmpl", .listNode [.templateNode "_left" .dot, .templateNode "_right" .dot]),
   ("_left.tmpl", .listNode [.action (.pipeNode [.command [.field ["lvar"]]]), .templateNode "_shared" .dot]),
   ("_right.tmpl", .listNode [.action (.pipeNode [.command [.field ["rvar"]]]), .templateNode "_shared" .dot]),
   ("_shared.tmpl", .action (.pipeNode [.command [.field ["svar"]]]))]

example :
    extractPromptArgumentsFromTemplate exDiamondTmpl "p" =
      .ok ["lvar", "svar", "rvar"] := rfl

/-- A reference to a template that is not among the loaded ones is an error
(parser lines 209-211). -/
private def exMissingTmpl : Tmpl :=
  [("p.tmpl", .listNode [.templateNode "_gone" .dot, .action (.pipeNode [.command [.field ["x"]]])])]

example :
    extractPromptArgumentsFromTemplate exMissingTmpl "p" =
      .error (missingErrMsg "_gone") := rfl

/-! ### Static description of a template's variables and references

`Node.varsB` collects exactly the names the walker inserts when it traverses a
tree (first identifier segment, lowered, dollar- and built-in-filtered);
`Node.refs` collects the names of the `{{template}}` references in a tree. -/

mutual

/-- The externally-supplied variable names contributed directly by one tree. -/
def Node.varsB (builtIn : List String) : Node → List String
  | .nilNode => []
  | .text _ => []
  | .dot => []
  | .identifier _ => []
  | .stringConst _ => []
  | .action p => p.varsB builtIn
  | .ifNode p l e => p.varsB builtIn ++ l.varsB builtIn ++ e.varsB builtIn
  | .rangeNode p l e => p.varsB builtIn ++ l.varsB builtIn ++ e.varsB builtIn
  | .withNode p l e => p.varsB builtIn ++ l.varsB builtIn ++ e.varsB builtIn
  | .listNode ns => Node.varsListB builtIn ns
  | .pipeNode ns => Node.varsListB builtIn ns
  | .command ns => Node.varsListB builtIn ns
  | .field idents =>
    match idents with
    | [] => []
    | i :: _ => if lowerStr i ∈ builtIn then [] else [lowerStr i]
  | .variableNode idents =>
    match idents with
    | [] => []
    | i :: _ =>
      if startsWithDollar (lowerStr i) then []
      else if lowerStr i ∈ builtIn then [] else [lowerStr i]
  | .templateNode _ p => p.varsB builtIn

/-- Variables contributed by a list of trees. -/
def Node.varsListB (builtIn : List String) : List Node → List String
  | [] => []
  | n :: rest => n.varsB builtIn ++ Node.varsListB builtIn rest

end

mutual

/-- The names of the template references occurring in a tree. -/
def Node.refs : Node → List String
  | .nilNode => []
  | .text _ => []
  | .dot => []
  | .identifier _ => []
  | .stringConst _ => []
  | .action p => p.refs
  | .ifNode p l e => p.refs ++ l.refs ++ e.refs
  | .rangeNode p l e => p.refs ++ l.refs ++ e.refs
  | .withNode p l e => p.refs ++ l.refs ++ e.refs
  | .listNode ns => Node.refsList ns
  | .pipeNode ns => Node.refsList ns
  | .command ns => Node.refsList ns
  | .field _ => []
  | .variableNode _ => []
  | .templateNode name p => name :: p.refs

/-- References occurring in a list of trees. -/
def Node.refsList : List Node → List String
  | [] => []
  | n :: rest => n.refs ++ Node.refsList rest

end

/-- One edge of the partial-inclusion reference graph: template name `m`
resolves to a body that references name `r`. -/
def RefStep (tmpl : Tmpl) (m r : String) : Prop :=
  ∃ b, resolveRef tmpl m = some b ∧ r ∈ b.refs

/-- The reference names reachable from a root tree: its own references and
everything further reachable through resolvable names. -/
inductive ReachesFrom (tmpl : Tmpl) (root : Node) : String → Prop where
  | base {r : String} : r ∈ root.refs → ReachesFrom tmpl root r
  | step {m r : String} : ReachesFrom tmpl root m → RefStep tmpl m r →
      ReachesFrom tmpl root r

/-- The variables contributed by the body a name resolves to (none when the
name does not resolve). -/
def varsRes (builtIn : List String) (tmpl : Tmpl) (n : String) : List String :=
  match resolveRef tmpl n with
  | some b => b.varsB builtIn
  | none => []

/-- The reference graph reachable from `root` contains a cycle. -/
def CycleReachable (tmpl : Tmpl) (root : Node) : Prop :=
  ∃ n, ReachesFrom tmpl root n ∧ Relation.TransGen (RefStep tmpl) n n

/-! ### The JSON value decoder

`parseMCPArgs` calls `encoding/json.Unmarshal` into an `interface{}`; the
standard library is an external collaborator, modelled by `jsonDecode`, a
recogniser of the JSON value grammar (RFC 8259) restricted as follows:
numeric literals are kept as their lexemes (Go produces `float64`, and
floating point is out of scope of the shallow embedding), and `\uXXXX`
escapes are decoded without surrogate-pair combination. -/

inductive JValue where
  | null
  | bool (b : Bool)
  | num (lexeme : String)
  | str (s : String)
  | arr (elems : List JValue)
  | obj (fields : List (String × JValue))

/-- JSON insignificant whitespace. -/
def isJsonWs (c : Char) : Bool := c = ' ' ∨ c = '\t' ∨ c = '\n' ∨ c = '\r'

/-- Skip insignificant whitespace. -/
def skipWs (cs : List Char) : List Char := cs.dropWhile isJsonWs

/-- Match an exact literal continuation (for true/false/null). -/
def expectLit : List Char → List Char → Option (List Char)
  | [], cs => some cs
  | l :: ls, c :: cs => if c = l then expectLit ls cs else none
  | _ :: _, [] => none

/-- Hexadecimal digit value. -/
def hexVal (c : Char) : Option Nat :=
  if '0' ≤ c ∧ c ≤ '9' then some (c.toNat - 48)
  else if 'a' ≤ c ∧ c ≤ 'f' then some (c.toNat - 87)
  else if 'A' ≤ c ∧ c ≤ 'F' then some (c.toNat - 55)
  else none

/-- Scan the remainder of a JSON string literal (the opening quote already
consumed), decoding escapes. -/
def strLitLoop : List Char → List Char → Option (String × List Char)
  | _, [] => none
  | acc, c :: rest =>
    if c = '"' then some (⟨acc.reverse⟩, rest)
    else if c = '\\' then
      match rest with
      | [] => none
      | e :: r2 =>
        if e = '"' then strLitLoop ('"' :: acc) r2
        else if e = '\\' then strLitLoop ('\\' :: acc) r2
        else if e = '/' then strLitLoop ('/' :: acc) r2
        else if e = 'b' then strLitLoop (Char.ofNat 8 :: acc) r2
        else if e = 'f' then strLitLoop (Char.ofNat 12 :: acc) r2
        else if e = 'n' then strLitLoop ('\n' :: acc) r2
        else if e = 'r' then strLitLoop ('\r' :: acc) r2
        else if e = 't' then strLitLoop ('\t' :: acc) r2
        else if e = 'u' then
          match r2 with
          | h1 :: h2 :: h3 :: h4 :: r3 =>
            match hexVal h1, hexVal h2, hexVal h3, hexVal h4 with
            | some a, some b, some c', some d =>
              strLitLoop (Char.ofNat (((a * 16 + b) * 16 + c') * 16 + d) :: acc) r3
            | _, _, _, _ => none
          | _ => none
        else none
    else if c.toNat < 32 then none
    else strLitLoop (c :: acc) rest

/-- Scan a JSON number lexeme. -/
def numberLex (cs : List Char) : Option (String × List Char) :=
  let (sign, cs1) :=
    match cs with
    | '-' :: r => (['-'], r)
    | _ => (([] : List Char), cs)
  let intPart : Option (List Char × List Char) :=
    match cs1 with
    | '0' :: r => some (['0'], r)
    | c :: _ =>
      if '1' ≤ c ∧ c ≤ '9' then
        some (cs1.takeWhile (fun d => '0' ≤ d ∧ d ≤ '9'),
          cs1.dropWhile (fun d => '0' ≤ d ∧ d ≤ '9'))
      else none
    | [] => none
  match intPart with
  | none => none
  | some (ip, cs2) =>
    let (fp, cs3) :=
      match cs2 with
      | '.' :: r =>
        let ds := r.takeWhile (fun d => '0' ≤ d ∧ d ≤ '9')
        if ds = [] then ([], cs2)
        else ('.' :: ds, r.dropWhile (fun d => '0' ≤ d ∧ d ≤ '9'))
      | _ => (([] : List Char), cs2)
    let (ep, cs4) :=
      match cs3 with
      | e :: r =>
        if e = 'e' ∨ e = 'E' then
          let (sgn, r2) :=
            match r with
            | s :: r' => if s = '+' ∨ s = '-' then ([s], r') else (([] : List Char), r)
            | [] => (([] : List Char), r)
          let ds := r2.takeWhile (fun d => '0' ≤ d ∧ d ≤ '9')
          if ds = [] then (([] : List Char), cs3)
          else (e :: (sgn ++ ds), r2.dropWhile (fun d => '0' ≤ d ∧ d ≤ '9'))
        else (([] : List Char), cs3)
      | [] => (([] : List Char), cs3)
    some (⟨sign ++ ip ++ fp ++ ep⟩, cs4)

/-- The pending work of the JSON recogniser (defunctionalised so that the
recursion is structural on the fuel). -/
inductive JTask where
  | value (cs : List Char)
  | arrCont (acc : List JValue) (cs : List Char)
  | objCont (acc : List (String × JValue)) (cs : List Char)

/-- One recogniser for all three kinds of pending work. -/
def jsonRun : Nat → JTask → Option (JValue × List Char)
  | 0, _ => none
  | fuel + 1, task =>
    match task with
    | .value cs =>
      match skipWs cs with
      | [] => none
      | c :: rest =>
        if c = 't' then (expectLit ['r', 'u', 'e'] rest).map (fun r => (.bool true, r))
        else if c = 'f' then (expectLit ['a', 'l', 's', 'e'] rest).map (fun r => (.bool false, r))
        else if c = 'n' then (expectLit ['u', 'l', 'l'] rest).map (fun r => (.null, r))
        else if c = '"' then (strLitLoop [] rest).map (fun p => (.str p.1, p.2))
        else if c = '[' then
          match skipWs rest with
          | ']' :: r2 => some (.arr [], r2)
          | cs2 => jsonRun fuel (.arrCont [] cs2)
        else if c = '{' then
          match skipWs rest with
          | '}' :: r2 => some (.obj [], r2)
          | cs2 => jsonRun fuel (.objCont [] cs2)
        else (numberLex (c :: rest)).map (fun p => (.num p.1, p.2))
    | .arrCont acc cs =>
      match jsonRun fuel (.value cs) with
      | none => none
      | some (v, r) =>
        match skipWs r with
        | ',' :: r2 => jsonRun fuel (.arrCont (acc ++ [v]) r2)
        | ']' :: r2 => some (.arr (acc ++ [v]), r2)
        | _ => none
    | .objCont acc cs =>
      match skipWs cs with
      | '"' :: r =>
        match strLitLoop [] r with
        | none => none
        | some (k, r2) =>
          match skipWs r2 with
          | ':' :: r3 =>
            match jsonRun fuel (.value r3) with
            | none => none
            | some (v, r4) =>
              match skipWs r4 with
              | ',' :: r5 => jsonRun fuel (.objCont (acc ++ [(k, v)]) r5)
              | '}' :: r5 => some (.obj (acc ++ [(k, v)]), r5)
              | _ => none
          | _ => none
      | _ => none

/-- Model of `json.Unmarshal(value, &interface{})`: the whole input must be
one JSON value surrounded by optional whitespace. -/
def jsonDecode (s : String) : Option JValue :=
  match jsonRun (2 * s.data.length + 2) (.value s.data) with
  | some (v, r) => if skipWs r = [] then some v else none
  | none => none

example : jsonDecode "true" = some (.bool true) := rfl

example : jsonDecode "false" = some (.bool false) := rfl

example : jsonDecode "null" = some .null := rfl

example : jsonDecode "42" = some (.num "42") := rfl

example : jsonDecode "-100.5" = some (.num "-100.5") := rfl

example : jsonDecode "John" = none := rfl

example : jsonDecode "" = none := rfl

example : jsonDecode "\"Alice\"" = some (.str "Alice") := rfl

example : jsonDecode "[1, 2]" = some (.arr [.num "1", .num "2"]) := rfl

example : jsonDecode "[\"a\", \"b\"]" = some (.arr [.str "a", .str "b"]) := rfl

example :
    jsonDecode "\x7b\"name\": \"Alice\", \"age\": 30\x7d" =
      some (.obj [("name", .str "Alice"), ("age", .num "30")]) := rfl

example : jsonDecode "\x7bname: \"Alice\"\x7d" = none := rfl

example : jsonDecode "\x7b\"name\": \"Alice\"" = none := rfl

/-! ### The argument value resolver and the MCP handler -/

/-- Go map assignment `m[k] = v`, on an association list. -/
def upsert {α : Type} : List (String × α) → String → α → List (String × α)
  | [], k, v => [(k, v)]
  | (k', v') :: rest, k, v =>
    if k = k' then (k, v) :: rest else (k', v') :: upsert rest k v

/-- Shallow embedding of `parseMCPArgs` (lines 636-647 of the server file).
The Go loop ranges over a map whose iteration order is unspecified; the model
takes the arguments as an association list (request arguments arrive as a
JSON object). -/
def parseMCPArgs (args : List (String × String)) (enableJSONArgs : Bool)
    (data : List (String × JValue)) : List (String × JValue) :=
  args.foldl (fun d kv =>
    if enableJSONArgs then
      match jsonDecode kv.2 with
      | some parsed => upsert d kv.1 parsed
      | none => upsert d kv.1 (.str kv.2)
    else upsert d kv.1 (.str kv.2)) data

/-- The value a caller-supplied argument contributes to the data map: with
JSON decoding enabled, the decoded value when the whole string is one JSON
value, the original string otherwise; with decoding disabled, always the
original string. -/
def decodeArgValue (enableJSONArgs : Bool) (v : String) : JValue :=
  if enableJSONArgs then
    match jsonDecode v with
    | some parsed => parsed
    | none => .str v
  else .str v

/-- The data map built by the handler returned by
`PromptsServer.makeMCPHandler` (lines 577-583 of the server file): the date
built-in, then the build-time environment defaults, then the caller-supplied
arguments.  `dateVal` stands for `time.Now().Format(...)` (real time is
external). -/
def handlerData (dateVal : String) (envArgs : List (String × String))
    (enableJSONArgs : Bool) (requestArgs : List (String × String)) :
    List (String × JValue) :=
  let data : List (String × JValue) := [("date", .str dateVal)]
  let data := envArgs.foldl (fun d kv => upsert d kv.1 (.str kv.2)) data
  parseMCPArgs requestArgs enableJSONArgs data

/-- One message of a get-prompt result (`mcp.NewPromptMessage` with
`mcp.NewTextContent`). -/
structure PromptMessage where
  role : String
  text : String

/-- `mcp.GetPromptResult` as far as the handler populates it. -/
structure GetPromptResult where
  description : String
  messages : List PromptMessage

/-- Shallow embedding of the handler returned by
`PromptsServer.makeMCPHandler` (lines 574-600 of the server file).  The
template execution engine is the external collaborator `render`, standing
for `tmpl.ExecuteTemplate(&result, templateName, data)`. -/
def makeMCPHandler (render : List (String × JValue) → Except String String)
    (templateName description : String) (envArgs : List (String × String))
    (enableJSONArgs : Bool) (dateVal : String)
    (requestArgs : List (String × String)) : Except String GetPromptResult :=
  match render (handlerData dateVal envArgs enableJSONArgs requestArgs) with
  | .error e => .error ("execute template \"" ++ templateName ++ "\": " ++ e)
  | .ok result =>
    .ok { description := description,
          messages := [{ role := "user", text := trimSpace result }] }

/-! ### The reload coordinator -/

/-- The four first-line comment conventions accepted by
`ExtractPromptDescriptionFromFile` (lines 62-67 of the parser). -/
def commentMarkers : List (String × String) :=
  [("\x7b\x7b/*", "*/\x7d\x7d"),
   ("\x7b\x7b- /*", "*/\x7d\x7d"),
   ("\x7b\x7b/*", "*/ -\x7d\x7d"),
   ("\x7b\x7b- /*", "*/ -\x7d\x7d")]

/-- Try the comment conventions in order on the first line. -/
def descFromMarkers : List (String × String) → String → String
  | [], _ => ""
  | (a, b) :: rest, line =>
    if strHasPre a line && strHasSuf b line then
      trimSpace (strTrimSuf b (strTrimPre a line))
    else descFromMarkers rest line

/-- Shallow embedding of `ExtractPromptDescriptionFromFile` (lines 47-77 of
the parser), applied to the already-read file content. -/
def extractPromptDescription (content : String) : String :=
  let content := trimSpace content
  let firstLine : String := ⟨content.data.takeWhile (fun c => c ≠ '\n')⟩
  let firstLine := trimSpace firstLine
  descFromMarkers commentMarkers firstLine

/-- One directory entry of the prompts directory, together with the outcome
of reading it (`os.ReadFile` may fail). -/
structure FileEntry where
  name : String
  isRegular : Bool
  readResult : Except String String

/-- `isTemplateFile` (lines 649-651 of the server file). -/
def isTemplateFile (f : FileEntry) : Bool :=
  f.isRegular && hasTmplExt f.name && !(startsWithUnderscore f.name)

/-- One prompt as registered with the protocol-server collaborator
(`server.ServerPrompt`: the `mcp.Prompt` fields plus its bound handler's
template name). -/
structure ServerPrompt where
  name : String
  description : String
  promptArgs : List String
  envArgs : List (String × String)
  templateName : String

/-- The inputs of one `loadServerPrompts` run: the outcome of
`ParseDir` (the external template parser), the outcome of `os.ReadDir`, and
the process environment.  File paths are modelled by bare file names (the
directory prefix is constant). -/
structure LoadInput where
  parseDirResult : Except String Tmpl
  readDirResult : Except String (List FileEntry)
  env : List (String × String)

/-- The environment-default split performed at lines 516-526 of the server
file: arguments whose upper-cased name is set in the environment receive
that value at build time. -/
def envArgsOf (args : List String) (env : List (String × String)) :
    List (String × String) :=
  args.filterMap (fun a => (alookup env (upperStr a)).map (fun v => (a, v)))

/-- The complement of `envArgsOf`: arguments that must come from the
request. -/
def promptArgsOf (args : List String) (env : List (String × String)) :
    List String :=
  args.filter (fun a => (alookup env (upperStr a)).isNone)

/-- Shallow embedding of `PromptsServer.loadServerPrompts` (lines 482-550 of
the server file). -/
def loadServerPrompts (inp : LoadInput) : Except String (List ServerPrompt) :=
  match inp.parseDirResult with
  | .error e => .error ("parse all prompts: " ++ e)
  | .ok tmpl =>
    match inp.readDirResult with
    | .error e => .error ("read prompts directory: " ++ e)
    | .ok files =>
      files.foldlM (fun acc f =>
        if isTemplateFile f then
          let templateName := f.name
          match alookup tmpl templateName with
          | none => .error ("template \"" ++ templateName ++ "\" not found")
          | some _ =>
            match f.readResult with
            | .error e =>
              .error ("extract prompt description from \"" ++ f.name ++
                "\" template file: " ++ e)
            | .ok content =>
              let description := extractPromptDescription content
              match extractPromptArgumentsFromTemplate tmpl templateName with
              | .error e =>
                .error ("extract prompt arguments from \"" ++ f.name ++
                  "\" template file: " ++ e)
              | .ok args =>
                let envArgs := envArgsOf args inp.env
                let promptArgs := promptArgsOf args inp.env
                .ok (acc ++
                  [ServerPrompt.mk (trimExt f.name) description promptArgs
                    envArgs templateName])
        else .ok acc) []

/-- The registry state relevant to `reloadPrompts`: the prompt map of the
protocol-server collaborator (keyed by name) and the server's record of the
names it registered. -/
structure PromptsServerState where
  mcpPrompts : List ServerPrompt
  registeredPrompts : List String

/-- `MCPServer.DeletePrompts`: remove the named prompts from the registry. -/
def deletePrompts (reg : List ServerPrompt) (names : List String) :
    List ServerPrompt :=
  reg.filter (fun p => decide (p.name ∉ names))

/-- Store one prompt under its name (`MCPServer.AddPrompts` overwrites
same-named entries). -/
def storePrompt : List ServerPrompt → ServerPrompt → List ServerPrompt
  | [], p => [p]
  | q :: rest, p => if q.name = p.name then p :: rest else q :: storePrompt rest p

/-- `MCPServer.AddPrompts`. -/
def addPrompts (reg : List ServerPrompt) (news : List ServerPrompt) :
    List ServerPrompt :=
  news.foldl storePrompt reg

/-- Shallow embedding of `PromptsServer.reloadPrompts` (lines 552-572 of the
server file): load the new prompt list; on failure return the error (the
registry is untouched); on success delete the previously registered prompts,
add the new ones and record their names. -/
def reloadPrompts (inp : LoadInput) (st : PromptsServerState) :
    Except String PromptsServerState :=
  match loadServerPrompts inp with
  | .error e => .error ("load server prompts: " ++ e)
  | .ok newServerPrompts =>
    let afterDelete :=
      if st.registeredPrompts.length > 0 then
        deletePrompts st.mcpPrompts st.registeredPrompts
      else st.mcpPrompts
    .ok { mcpPrompts := addPrompts afterDelete newServerPrompts,
          registeredPrompts := newServerPrompts.map (fun p => p.name) }

/-- The registry contents observable by a concurrent request at the
collaborator-operation boundaries of one `reloadPrompts` call: the registry
before the call, after `DeletePrompts`, and after `AddPrompts` (on failure
the registry is never touched). -/
def reloadObservableStates (inp : LoadInput) (st : PromptsServerState) :
    List (List ServerPrompt) :=
  match loadServerPrompts inp with
  | .error _ => [st.mcpPrompts]
  | .ok newServerPrompts =>
    let afterDelete :=
      if st.registeredPrompts.length > 0 then
        deletePrompts st.mcpPrompts st.registeredPrompts
      else st.mcpPrompts
    [st.mcpPrompts, afterDelete, addPrompts afterDelete newServerPrompts]

/-! ### Unfolding equations for the walker -/

section WalkEquations

variable (tmpl : Tmpl) (bi : List String) (fuel : Nat) (s : WalkState)
  (path : List String)

theorem walk_zero (node : Node) :
    walkNodes tmpl bi 0 node s path = .error fuelErrMsg := rfl

theorem walk_nilNode :
    walkNodes tmpl bi (fuel + 1) .nilNode s path = .ok s := rfl

theorem walk_text (t : String) :
    walkNodes tmpl bi (fuel + 1) (.text t) s path = .ok s := rfl

theorem walk_dot :
    walkNodes tmpl bi (fuel + 1) .dot s path = .ok s := rfl

theorem walk_identifier (t : String) :
    walkNodes tmpl bi (fuel + 1) (.identifier t) s path = .ok s := rfl

theorem walk_stringConst (t : String) :
    walkNodes tmpl bi (fuel + 1) (.stringConst t) s path = .ok s := rfl

theorem walk_action (p : Node) :
    walkNodes tmpl bi (fuel + 1) (.action p) s path =
      walkNodes tmpl bi fuel p s path := rfl

theorem walk_ifNode (p l e : Node) :
    walkNodes tmpl bi (fuel + 1) (.ifNode p l e) s path =
      (walkNodes tmpl bi fuel p s path >>= fun s1 =>
        walkNodes tmpl bi fuel l s1 path >>= fun s2 =>
          walkNodes tmpl bi fuel e s2 path) := rfl

theorem walk_rangeNode (p l e : Node) :
    walkNodes tmpl bi (fuel + 1) (.rangeNode p l e) s path =
      (walkNodes tmpl bi fuel p s path >>= fun s1 =>
        walkNodes tmpl bi fuel l s1 path >>= fun s2 =>
          walkNodes tmpl bi fuel e s2 path) := rfl

theorem walk_withNode (p l e : Node) :
    walkNodes tmpl bi (fuel + 1) (.withNode p l e) s path =
      (walkNodes tmpl bi fuel p s path >>= fun s1 =>
        walkNodes tmpl bi fuel l s1 path >>= fun s2 =>
          walkNodes tmpl bi fuel e s2 path) := rfl

theorem walk_listNode (ns : List Node) :
    walkNodes tmpl bi (fuel + 1) (.listNode ns) s path =
      ns.foldlM (fun st c => walkNodes tmpl bi fuel c st path) s := rfl

theorem walk_pipeNode (ns : List Node) :
    walkNodes tmpl bi (fuel + 1) (.pipeNode ns) s path =
      ns.foldlM (fun st c => walkNodes tmpl bi fuel c st path) s := rfl

theorem walk_command (ns : List Node) :
    walkNodes tmpl bi (fuel + 1) (.command ns) s path =
      ns.foldlM (fun st c => walkNodes tmpl bi fuel c st path) s := rfl

theorem walk_field_nil :
    walkNodes tmpl bi (fuel + 1) (.field []) s path = .ok s := rfl

theorem walk_field_cons (i : String) (is : List String) :
    walkNodes tmpl bi (fuel + 1) (.field (i :: is)) s path =
      (if lowerStr i ∈ bi then .ok s
       else .ok { s with argsMap := insertArg s.argsMap (lowerStr i) }) := rfl

theorem walk_variable_nil :
    walkNodes tmpl bi (fuel + 1) (.variableNode []) s path = .ok s := rfl

theorem walk_variable_cons (i : String) (is : List String) :
    walkNodes tmpl bi (fuel + 1) (.variableNode (i :: is)) s path =
      (if startsWithDollar (lowerStr i) then .ok s
       else if lowerStr i ∈ bi then .ok s
       else .ok { s with argsMap := insertArg s.argsMap (lowerStr i) }) := rfl

theorem walk_template_inPath {name : String} (pipe : Node) (h : name ∈ path) :
    walkNodes tmpl bi (fuel + 1) (.templateNode name pipe) s path =
      .error (cycleErrMsg (path ++ [name])) := by
  show (if name ∈ path then _ else _) = _
  simp [h]

theorem walk_template_processed {name : String} (pipe : Node)
    (h1 : name ∉ path) (h2 : name ∈ s.processed) :
    walkNodes tmpl bi (fuel + 1) (.templateNode name pipe) s path =
      walkNodes tmpl bi fuel pipe s path := by
  show (if name ∈ path then _ else _) = _
  simp [h1, h2]

theorem walk_template_missing {name : String} (pipe : Node)
    (h1 : name ∉ path) (h2 : name ∉ s.processed)
    (h3 : resolveRef tmpl name = none) :
    walkNodes tmpl bi (fuel + 1) (.templateNode name pipe) s path =
      .error (missingErrMsg name) := by
  show (if name ∈ path then _ else _) = _
  simp [h1, h2, h3]

theorem walk_template_body {name : String} (pipe : Node) {body : Node}
    (h1 : name ∉ path) (h2 : name ∉ s.processed)
    (h3 : resolveRef tmpl name = some body) :
    walkNodes tmpl bi (fuel + 1) (.templateNode name pipe) s path =
      (walkNodes tmpl bi fuel body ⟨s.argsMap, name :: s.processed⟩
          (path ++ [name]) >>= fun s1 =>
        walkNodes tmpl bi fuel pipe s1 path) := by
  show (if name ∈ path then _ else _) = _
  simp [h1, h2, h3]

end WalkEquations

/-! ### Small helper lemmas -/

theorem ebind_ok {ε α β : Type} (a : α) (f : α → Except ε β) :
    (Except.ok a >>= f) = f a := rfl

theorem ebind_error {ε α β : Type} (e : ε) (f : α → Except ε β) :
    ((Except.error e : Except ε α) >>= f) = .error e := rfl

theorem insertArg_sub {s : List String} {a : String} : s ⊆ insertArg s a := by
  unfold insertArg
  split
  · exact fun x hx => hx
  · exact fun x hx => List.mem_append_left _ hx

theorem mem_insertArg {s : List String} {a x : String} :
    x ∈ insertArg s a ↔ x ∈ s ∨ x = a := by
  unfold insertArg
  split
  · rename_i h
    constructor
    · exact Or.inl
    · rintro (hx | rfl)
      · exact hx
      · exact h
  · simp

theorem self_mem_insertArg {s : List String} {a : String} : a ∈ insertArg s a :=
  mem_insertArg.mpr (Or.inr rfl)

theorem nodup_insertArg {s : List String} {a : String} (h : s.Nodup) :
    (insertArg s a).Nodup := by
  unfold insertArg
  split
  · exact h
  · rename_i hna
    simpa [List.nodup_append, h] using hna

theorem varsListB_sub {bi : List String} {c : Node} {ns : List Node}
    (h : c ∈ ns) : ∀ x ∈ c.varsB bi, x ∈ Node.varsListB bi ns := by
  induction ns with
  | nil => cases h
  | cons n rest ih =>
    intro x hx
    rcases List.mem_cons.mp h with rfl | hmem
    · exact List.mem_append_left _ hx
    · exact List.mem_append_right _ (ih hmem x hx)

theorem refsList_sub {c : Node} {ns : List Node} (h : c ∈ ns) :
    ∀ x ∈ c.refs, x ∈ Node.refsList ns := by
  induction ns with
  | nil => cases h
  | cons n rest ih =>
    intro x hx
    rcases List.mem_cons.mp h with rfl | hmem
    · exact List.mem_append_left _ hx
    · exact List.mem_append_right _ (ih hmem x hx)

theorem sizeList_le {c : Node} {ns : List Node} (h : c ∈ ns) :
    c.size ≤ Node.sizeList ns := by
  induction ns with
  | nil => cases h
  | cons n rest ih =>
    rcases List.mem_cons.mp h with rfl | hmem
    · simp [Node.sizeList]
    · have := ih hmem
      simp [Node.sizeList]
      omega

/-- Reachability is monotone in the root's reference list. -/
theorem reaches_mono {tmpl : Tmpl} {n₁ n₂ : Node}
    (h : ∀ r ∈ n₁.refs, r ∈ n₂.refs) {m : String}
    (hr : ReachesFrom tmpl n₁ m) : ReachesFrom tmpl n₂ m := by
  induction hr with
  | base hb => exact .base (h _ hb)
  | step _ hs ih => exact .step ih hs

/-- Reachability through a resolvable reference of the root. -/
theorem reaches_through {tmpl : Tmpl} {node body : Node} {name m : String}
    (hname : name ∈ node.refs) (hres : resolveRef tmpl name = some body)
    (hr : ReachesFrom tmpl body m) : ReachesFrom tmpl node m := by
  induction hr with
  | base hb => exact .step (.base hname) ⟨body, hres, hb⟩
  | step _ hs ih => exact .step ih hs

/-! ### Generic lemmas about `foldlM` over `Except` -/

section FoldLemmas

variable {α β : Type} {ε : Type}

theorem foldlM_ok_chain (R : β → β → Prop) (hrefl : ∀ b, R b b)
    (htrans : ∀ {a b c}, R a b → R b c → R a c)
    (f : β → α → Except ε β) (l : List α)
    (hstep : ∀ a ∈ l, ∀ b b', f b a = .ok b' → R b b') :
    ∀ b r, l.foldlM f b = .ok r →
      R b r ∧ ∀ a ∈ l, ∃ b₁ b₂, f b₁ a = .ok b₂ ∧ R b b₁ ∧ R b₂ r := by
  induction l with
  | nil =>
    intro b r h
    replace h : (Except.ok b : Except ε β) = .ok r := h
    cases h
    exact ⟨hrefl b, by simp⟩
  | cons a l ih =>
    intro b r h
    rw [List.foldlM_cons] at h
    cases hfa : f b a with
    | error e => rw [hfa] at h; simp [ebind_error] at h
    | ok b1 =>
      rw [hfa, ebind_ok] at h
      have hstep' : ∀ x ∈ l, ∀ b b', f b x = .ok b' → R b b' :=
        fun x hx => hstep x (List.mem_cons_of_mem _ hx)
      obtain ⟨hR, hall⟩ := ih hstep' b1 r h
      have hb1 : R b b1 := hstep a (List.mem_cons_self _ _) b b1 hfa
      refine ⟨htrans hb1 hR, ?_⟩
      intro x hx
      rcases List.mem_cons.mp hx with rfl | hmem
      · exact ⟨b, b1, hfa, hrefl b, hR⟩
      · obtain ⟨b₁, b₂, hf, hR1, hR2⟩ := hall x hmem
        exact ⟨b₁, b₂, hf, htrans hb1 hR1, hR2⟩

theorem foldlM_error_chain (R : β → β → Prop) (hrefl : ∀ b, R b b)
    (htrans : ∀ {a b c}, R a b → R b c → R a c)
    (f : β → α → Except ε β) (l : List α)
    (hstep : ∀ a ∈ l, ∀ b b', f b a = .ok b' → R b b') :
    ∀ b e, l.foldlM f b = .error e →
      ∃ a ∈ l, ∃ b', R b b' ∧ f b' a = .error e := by
  induction l with
  | nil => intro b e h; simp [List.foldlM] at h; cases h
  | cons a l ih =>
    intro b e h
    rw [List.foldlM_cons] at h
    cases hfa : f b a with
    | error e' =>
      rw [hfa] at h
      simp only [ebind_error] at h
      cases h
      exact ⟨a, List.mem_cons_self _ _, b, hrefl b, hfa⟩
    | ok b1 =>
      rw [hfa, ebind_ok] at h
      have hstep' : ∀ x ∈ l, ∀ b b', f b x = .ok b' → R b b' :=
        fun x hx => hstep x (List.mem_cons_of_mem _ hx)
      obtain ⟨x, hx, b', hR, hf⟩ := ih hstep' b1 e h
      exact ⟨x, List.mem_cons_of_mem _ hx, b',
        htrans (hstep a (List.mem_cons_self _ _) b b1 hfa) hR, hf⟩

theorem foldlM_ok_all (R : β → β → Prop) (hrefl : ∀ b, R b b)
    (htrans : ∀ {a b c}, R a b → R b c → R a c)
    (f : β → α → Except ε β) (l : List α)
    (hstepR : ∀ a ∈ l, ∀ b b', f b a = .ok b' → R b b') :
    ∀ b, (∀ a ∈ l, ∀ b', R b b' → ∃ r', f b' a = .ok r') →
      ∃ r, l.foldlM f b = .ok r := by
  induction l with
  | nil => intro b _; exact ⟨b, rfl⟩
  | cons a l ih =>
    intro b hstep
    obtain ⟨b1, hb1⟩ := hstep a (List.mem_cons_self _ _) b (hrefl b)
    have hRb1 : R b b1 := hstepR a (List.mem_cons_self _ _) b b1 hb1
    obtain ⟨r, hr⟩ := ih
      (fun x hx => hstepR x (List.mem_cons_of_mem _ hx)) b1
      (fun x hx b' hR => hstep x (List.mem_cons_of_mem _ hx) b' (htrans hRb1 hR))
    exact ⟨r, by rw [List.foldlM_cons, hb1, ebind_ok]; exact hr⟩

end FoldLemmas

/-! ### Monotonicity of the walker's state -/

/-- The state-growth relation: the processed list extends by a prefix and the
argument list only gains members. -/
def StateLE (s r : WalkState) : Prop :=
  (∃ d, r.processed = d ++ s.processed) ∧ ∀ x ∈ s.argsMap, x ∈ r.argsMap

theorem stateLE_refl (s : WalkState) : StateLE s s := ⟨⟨[], rfl⟩, fun _ h => h⟩

theorem stateLE_trans {a b c : WalkState} (h1 : StateLE a b) (h2 : StateLE b c) :
    StateLE a c := by
  obtain ⟨⟨d1, hd1⟩, ha1⟩ := h1
  obtain ⟨⟨d2, hd2⟩, ha2⟩ := h2
  exact ⟨⟨d2 ++ d1, by rw [hd2, hd1, List.append_assoc]⟩,
    fun x hx => ha2 x (ha1 x hx)⟩

theorem stateLE_processed_sub {a b : WalkState} (h : StateLE a b) :
    ∀ n ∈ a.processed, n ∈ b.processed := by
  obtain ⟨⟨d, hd⟩, _⟩ := h
  intro n hn
  rw [hd]
  exact List.mem_append_right _ hn

/-- M1: a successful walk only grows the state. -/
theorem walk_mono {tmpl : Tmpl} {bi : List String} :
    ∀ {fuel : Nat} {node : Node} {s : WalkState} {path : List String}
      {r : WalkState}, walkNodes tmpl bi fuel node s path = .ok r → StateLE s r := by
  intro fuel
  induction fuel with
  | zero => intro node s path r h; rw [walk_zero] at h; cases h
  | succ fuel ih =>
    intro node s path r h
    cases node with
    | nilNode => rw [walk_nilNode] at h; cases h; exact stateLE_refl _
    | text t => rw [walk_text] at h; cases h; exact stateLE_refl _
    | dot => rw [walk_dot] at h; cases h; exact stateLE_refl _
    | identifier t => rw [walk_identifier] at h; cases h; exact stateLE_refl _
    | stringConst t => rw [walk_stringConst] at h; cases h; exact stateLE_refl _
    | action p => rw [walk_action] at h; exact ih h
    | ifNode p l e =>
      rw [walk_ifNode] at h
      cases h1 : walkNodes tmpl bi fuel p s path with
      | error e' => rw [h1, ebind_error] at h; cases h
      | ok s1 =>
        rw [h1, ebind_ok] at h
        cases h2 : walkNodes tmpl bi fuel l s1 path with
        | error e' => rw [h2, ebind_error] at h; cases h
        | ok s2 =>
          rw [h2, ebind_ok] at h
          exact stateLE_trans (stateLE_trans (ih h1) (ih h2)) (ih h)
    | rangeNode p l e =>
      rw [walk_rangeNode] at h
      cases h1 : walkNodes tmpl bi fuel p s path with
      | error e' => rw [h1, ebind_error] at h; cases h
      | ok s1 =>
        rw [h1, ebind_ok] at h
        cases h2 : walkNodes tmpl bi fuel l s1 path with
        | error e' => rw [h2, ebind_error] at h; cases h
        | ok s2 =>
          rw [h2, ebind_ok] at h
          exact stateLE_trans (stateLE_trans (ih h1) (ih h2)) (ih h)
    | withNode p l e =>
      rw [walk_withNode] at h
      cases h1 : walkNodes tmpl bi fuel p s path with
      | error e' => rw [h1, ebind_error] at h; cases h
      | ok s1 =>
        rw [h1, ebind_ok] at h
        cases h2 : walkNodes tmpl bi fuel l s1 path with
        | error e' => rw [h2, ebind_error] at h; cases h
        | ok s2 =>
          rw [h2, ebind_ok] at h
          exact stateLE_trans (stateLE_trans (ih h1) (ih h2)) (ih h)
    | listNode ns =>
      rw [walk_listNode] at h
      exact (foldlM_ok_chain StateLE stateLE_refl (fun h1 h2 => stateLE_trans h1 h2) _ ns
        (fun a _ b b' hf => ih hf) s r h).1
    | pipeNode ns =>
      rw [walk_pipeNode] at h
      exact (foldlM_ok_chain StateLE stateLE_refl (fun h1 h2 => stateLE_trans h1 h2) _ ns
        (fun a _ b b' hf => ih hf) s r h).1
    | command ns =>
      rw [walk_command] at h
      exact (foldlM_ok_chain StateLE stateLE_refl (fun h1 h2 => stateLE_trans h1 h2) _ ns
        (fun a _ b b' hf => ih hf) s r h).1
    | field is =>
      cases is with
      | nil => rw [walk_field_nil] at h; cases h; exact stateLE_refl _
      | cons i rest =>
        rw [walk_field_cons] at h
        split at h
        · cases h; exact stateLE_refl _
        · cases h
          exact ⟨⟨[], rfl⟩, fun x hx => insertArg_sub hx⟩
    | variableNode is =>
      cases is with
      | nil => rw [walk_variable_nil] at h; cases h; exact stateLE_refl _
      | cons i rest =>
        rw [walk_variable_cons] at h
        split at h
        · cases h; exact stateLE_refl _
        · split at h
          · cases h; exact stateLE_refl _
          · cases h
            exact ⟨⟨[], rfl⟩, fun x hx => insertArg_sub hx⟩
    | templateNode name pipe =>
      by_cases hp : name ∈ path
      · rw [walk_template_inPath tmpl bi fuel s path pipe hp] at h; cases h
      · by_cases hm : name ∈ s.processed
        · rw [walk_template_processed tmpl bi fuel s path pipe hp hm] at h
          exact ih h
        · cases hres : resolveRef tmpl name with
          | none =>
            rw [walk_template_missing tmpl bi fuel s path pipe hp hm hres] at h
            cases h
          | some body =>
            rw [walk_template_body tmpl bi fuel s path pipe hp hm hres] at h
            cases h1 : walkNodes tmpl bi fuel body ⟨s.argsMap, name :: s.processed⟩
                (path ++ [name]) with
            | error e' => rw [h1, ebind_error] at h; cases h
            | ok s1 =>
              rw [h1, ebind_ok] at h
              have hmark : StateLE s ⟨s.argsMap, name :: s.processed⟩ :=
                ⟨⟨[name], rfl⟩, fun _ hx => hx⟩
              exact stateLE_trans (stateLE_trans hmark (ih h1)) (ih h)

/-! ### Soundness of the collected arguments (M2 + M3)

`WalkOut node s r` describes everything a successful walk of `node` from `s`
to `r` guarantees about where the new content of `r` comes from. -/

/-- Output description of one walk: state growth, duplicate-freeness, the
shape of collected names (lowered, not built-in), the provenance of
collected names (direct variables of the walked tree, or variables of a
processed template body), the provenance of processed names (reachable
references), and resolvability of newly processed names. -/
def WalkOut (tmpl : Tmpl) (bi : List String) (node : Node)
    (s r : WalkState) : Prop :=
  StateLE s r ∧
  (s.argsMap.Nodup → r.argsMap.Nodup) ∧
  (∀ x ∈ r.argsMap, x ∈ s.argsMap ∨ (∃ i, x = lowerStr i) ∧ x ∉ bi) ∧
  (∀ x ∈ r.argsMap, x ∈ s.argsMap ∨ x ∈ node.varsB bi ∨
    ∃ n, n ∈ r.processed ∧ x ∈ varsRes bi tmpl n) ∧
  (∀ n ∈ r.processed, n ∈ s.processed ∨ ReachesFrom tmpl node n) ∧
  (∀ n ∈ r.processed, n ∉ s.processed → (resolveRef tmpl n).isSome)

theorem walkOut_refl (tmpl : Tmpl) (bi : List String) (node : Node)
    (s : WalkState) : WalkOut tmpl bi node s s :=
  ⟨stateLE_refl s, fun h => h, fun x hx => Or.inl hx, fun x hx => Or.inl hx,
    fun n hn => Or.inl hn, fun n hn hn' => absurd hn hn'⟩

/-- Weakening to a node with more variables and references. -/
theorem walkOut_weaken {tmpl : Tmpl} {bi : List String} {c node : Node}
    {s r : WalkState} (h : WalkOut tmpl bi c s r)
    (hv : ∀ x ∈ c.varsB bi, x ∈ node.varsB bi)
    (hr : ∀ m, ReachesFrom tmpl c m → ReachesFrom tmpl node m) :
    WalkOut tmpl bi node s r := by
  obtain ⟨h1, h2, h3, h4, h5, h6⟩ := h
  refine ⟨h1, h2, h3, ?_, ?_, h6⟩
  · intro x hx
    rcases h4 x hx with hx' | hx' | hx'
    · exact Or.inl hx'
    · exact Or.inr (Or.inl (hv x hx'))
    · exact Or.inr (Or.inr hx')
  · intro n hn
    rcases h5 n hn with hn' | hn'
    · exact Or.inl hn'
    · exact Or.inr (hr n hn')

theorem walkOut_trans {tmpl : Tmpl} {bi : List String} {node : Node}
    {a b c : WalkState} (hab : WalkOut tmpl bi node a b)
    (hbc : WalkOut tmpl bi node b c) : WalkOut tmpl bi node a c := by
  obtain ⟨l1, n1, s1, p1, q1, r1⟩ := hab
  obtain ⟨l2, n2, s2, p2, q2, r2⟩ := hbc
  refine ⟨stateLE_trans l1 l2, fun h => n2 (n1 h), ?_, ?_, ?_, ?_⟩
  · intro x hx
    rcases s2 x hx with hx' | hx'
    · exact s1 x hx'
    · exact Or.inr hx'
  · intro x hx
    rcases p2 x hx with hx' | hx' | hx'
    · rcases p1 x hx' with hy | hy | ⟨n, hn, hv⟩
      · exact Or.inl hy
      · exact Or.inr (Or.inl hy)
      · exact Or.inr (Or.inr ⟨n, stateLE_processed_sub l2 n hn, hv⟩)
    · exact Or.inr (Or.inl hx')
    · exact Or.inr (Or.inr hx')
  · intro n hn
    rcases q2 n hn with hn' | hn'
    · exact q1 n hn'
    · exact Or.inr hn'
  · intro n hn hna
    by_cases hb : n ∈ b.processed
    · exact r1 n hb hna
    · exact r2 n hn hb

/-- M2/M3: what a successful walk guarantees about its output state. -/
theorem walk_out {tmpl : Tmpl} {bi : List String} :
    ∀ {fuel : Nat} {node : Node} {s : WalkState} {path : List String}
      {r : WalkState}, walkNodes tmpl bi fuel node s path = .ok r →
      WalkOut tmpl bi node s r := by
  intro fuel
  induction fuel with
  | zero => intro node s path r h; rw [walk_zero] at h; cases h
  | succ fuel ih =>
    intro node s path r h
    cases node with
    | nilNode => rw [walk_nilNode] at h; cases h; exact walkOut_refl _ _ _ _
    | text t => rw [walk_text] at h; cases h; exact walkOut_refl _ _ _ _
    | dot => rw [walk_dot] at h; cases h; exact walkOut_refl _ _ _ _
    | identifier t => rw [walk_identifier] at h; cases h; exact walkOut_refl _ _ _ _
    | stringConst t => rw [walk_stringConst] at h; cases h; exact walkOut_refl _ _ _ _
    | action p =>
      rw [walk_action] at h
      exact walkOut_weaken (ih h) (by simp [Node.varsB]) (fun m hm => reaches_mono (by simp [Node.refs]) hm)
    | ifNode p l e =>
      rw [walk_ifNode] at h
      cases h1 : walkNodes tmpl bi fuel p s path with
      | error e' => rw [h1, ebind_error] at h; cases h
      | ok s1 =>
        rw [h1, ebind_ok] at h
        cases h2 : walkNodes tmpl bi fuel l s1 path with
        | error e' => rw [h2, ebind_error] at h; cases h
        | ok s2 =>
          rw [h2, ebind_ok] at h
          have w1 : WalkOut tmpl bi (.ifNode p l e) s s1 := walkOut_weaken (ih h1)
            (by intro x hx; simp [Node.varsB]; tauto)
            (fun m hm => reaches_mono (by intro x hx; simp [Node.refs]; tauto) hm)
          have w2 : WalkOut tmpl bi (.ifNode p l e) s1 s2 := walkOut_weaken (ih h2)
            (by intro x hx; simp [Node.varsB]; tauto)
            (fun m hm => reaches_mono (by intro x hx; simp [Node.refs]; tauto) hm)
          have w3 : WalkOut tmpl bi (.ifNode p l e) s2 r := walkOut_weaken (ih h)
            (by intro x hx; simp [Node.varsB]; tauto)
            (fun m hm => reaches_mono (by intro x hx; simp [Node.refs]; tauto) hm)
          exact walkOut_trans (walkOut_trans w1 w2) w3
    | rangeNode p l e =>
      rw [walk_rangeNode] at h
      cases h1 : walkNodes tmpl bi fuel p s path with
      | error e' => rw [h1, ebind_error] at h; cases h
      | ok s1 =>
        rw [h1, ebind_ok] at h
        cases h2 : walkNodes tmpl bi fuel l s1 path with
        | error e' => rw [h2, ebind_error] at h; cases h
        | ok s2 =>
          rw [h2, ebind_ok] at h
          have w1 : WalkOut tmpl bi (.rangeNode p l e) s s1 := walkOut_weaken (ih h1)
            (by intro x hx; simp [Node.varsB]; tauto)
            (fun m hm => reaches_mono (by intro x hx; simp [Node.refs]; tauto) hm)
          have w2 : WalkOut tmpl bi (.rangeNode p l e) s1 s2 := walkOut_weaken (ih h2)
            (by intro x hx; simp [Node.varsB]; tauto)
            (fun m hm => reaches_mono (by intro x hx; simp [Node.refs]; tauto) hm)
          have w3 : WalkOut tmpl bi (.rangeNode p l e) s2 r := walkOut_weaken (ih h)
            (by intro x hx; simp [Node.varsB]; tauto)
            (fun m hm => reaches_mono (by intro x hx; simp [Node.refs]; tauto) hm)
          exact walkOut_trans (walkOut_trans w1 w2) w3
    | withNode p l e =>
      rw [walk_withNode] at h
      cases h1 : walkNodes tmpl bi fuel p s path with
      | error e' => rw [h1, ebind_error] at h; cases h
      | ok s1 =>
        rw [h1, ebind_ok] at h
        cases h2 : walkNodes tmpl bi fuel l s1 path with
        | error e' => rw [h2, ebind_error] at h; cases h
        | ok s2 =>
          rw [h2, ebind_ok] at h
          have w1 : WalkOut tmpl bi (.withNode p l e) s s1 := walkOut_weaken (ih h1)
            (by intro x hx; simp [Node.varsB]; tauto)
            (fun m hm => reaches_mono (by intro x hx; simp [Node.refs]; tauto) hm)
          have w2 : WalkOut tmpl bi (.withNode p l e) s1 s2 := walkOut_weaken (ih h2)
            (by intro x hx; simp [Node.varsB]; tauto)
            (fun m hm => reaches_mono (by intro x hx; simp [Node.refs]; tauto) hm)
          have w3 : WalkOut tmpl bi (.withNode p l e) s2 r := walkOut_weaken (ih h)
            (by intro x hx; simp [Node.varsB]; tauto)
            (fun m hm => reaches_mono (by intro x hx; simp [Node.refs]; tauto) hm)
          exact walkOut_trans (walkOut_trans w1 w2) w3
    | listNode ns =>
      rw [walk_listNode] at h
      refine (foldlM_ok_chain (WalkOut tmpl bi (.listNode ns))
        (walkOut_refl tmpl bi _) (fun h1 h2 => walkOut_trans h1 h2) _ ns ?_ s r h).1
      intro c hc b b' hf
      exact walkOut_weaken (ih hf)
        (by intro x hx; simp only [Node.varsB]; exact varsListB_sub hc x hx)
        (fun m hm => reaches_mono
          (by intro x hx; simp only [Node.refs]; exact refsList_sub hc x hx) hm)
    | pipeNode ns =>
      rw [walk_pipeNode] at h
      refine (foldlM_ok_chain (WalkOut tmpl bi (.pipeNode ns))
        (walkOut_refl tmpl bi _) (fun h1 h2 => walkOut_trans h1 h2) _ ns ?_ s r h).1
      intro c hc b b' hf
      exact walkOut_weaken (ih hf)
        (by intro x hx; simp only [Node.varsB]; exact varsListB_sub hc x hx)
        (fun m hm => reaches_mono
          (by intro x hx; simp only [Node.refs]; exact refsList_sub hc x hx) hm)
    | command ns =>
      rw [walk_command] at h
      refine (foldlM_ok_chain (WalkOut tmpl bi (.command ns))
        (walkOut_refl tmpl bi _) (fun h1 h2 => walkOut_trans h1 h2) _ ns ?_ s r h).1
      intro c hc b b' hf
      exact walkOut_weaken (ih hf)
        (by intro x hx; simp only [Node.varsB]; exact varsListB_sub hc x hx)
        (fun m hm => reaches_mono
          (by intro x hx; simp only [Node.refs]; exact refsList_sub hc x hx) hm)
    | field is =>
      cases is with
      | nil => rw [walk_field_nil] at h; cases h; exact walkOut_refl _ _ _ _
      | cons i rest =>
        rw [walk_field_cons] at h
        split at h
        · cases h; exact walkOut_refl _ _ _ _
        · rename_i hbi
          cases h
          refine ⟨⟨⟨[], rfl⟩, fun x hx => insertArg_sub hx⟩,
            fun hn => nodup_insertArg hn, ?_, ?_, fun n hn => Or.inl hn,
            fun n hn hn' => absurd hn hn'⟩
          · intro x hx
            rcases mem_insertArg.mp hx with hx' | rfl
            · exact Or.inl hx'
            · exact Or.inr ⟨⟨i, rfl⟩, hbi⟩
          · intro x hx
            rcases mem_insertArg.mp hx with hx' | rfl
            · exact Or.inl hx'
            · exact Or.inr (Or.inl (by simp [Node.varsB, hbi]))
    | variableNode is =>
      cases is with
      | nil => rw [walk_variable_nil] at h; cases h; exact walkOut_refl _ _ _ _
      | cons i rest =>
        rw [walk_variable_cons] at h
        split at h
        · rename_i hdollar
          cases h; exact walkOut_refl _ _ _ _
        · rename_i hdollar
          split at h
          · cases h; exact walkOut_refl _ _ _ _
          · rename_i hbi
            cases h
            refine ⟨⟨⟨[], rfl⟩, fun x hx => insertArg_sub hx⟩,
              fun hn => nodup_insertArg hn, ?_, ?_, fun n hn => Or.inl hn,
              fun n hn hn' => absurd hn hn'⟩
            · intro x hx
              rcases mem_insertArg.mp hx with hx' | rfl
              · exact Or.inl hx'
              · exact Or.inr ⟨⟨i, rfl⟩, hbi⟩
            · intro x hx
              rcases mem_insertArg.mp hx with hx' | rfl
              · exact Or.inl hx'
              · exact Or.inr (Or.inl (by simp [Node.varsB, hdollar, hbi]))
    | templateNode name pipe =>
      by_cases hp : name ∈ path
      · rw [walk_template_inPath tmpl bi fuel s path pipe hp] at h; cases h
      · by_cases hm : name ∈ s.processed
        · rw [walk_template_processed tmpl bi fuel s path pipe hp hm] at h
          exact walkOut_weaken (ih h) (by simp [Node.varsB])
            (fun m hm' => reaches_mono (by simp [Node.refs]; tauto) hm')
        · cases hres : resolveRef tmpl name with
          | none =>
            rw [walk_template_missing tmpl bi fuel s path pipe hp hm hres] at h
            cases h
          | some body =>
            rw [walk_template_body tmpl bi fuel s path pipe hp hm hres] at h
            cases h1 : walkNodes tmpl bi fuel body ⟨s.argsMap, name :: s.processed⟩
                (path ++ [name]) with
            | error e' => rw [h1, ebind_error] at h; cases h
            | ok s1 =>
              rw [h1, ebind_ok] at h
              have hnamemem : name ∈ Node.refs (.templateNode name pipe) := by
                simp [Node.refs]
              -- the walk of the referenced body, recast for the template node
              have wbody := ih h1
              have wmark : WalkOut tmpl bi (.templateNode name pipe) s
                  ⟨s.argsMap, name :: s.processed⟩ := by
                refine ⟨⟨⟨[name], rfl⟩, fun x hx => hx⟩, fun hn => hn,
                  fun x hx => Or.inl hx, fun x hx => Or.inl hx, ?_, ?_⟩
                · intro n hn
                  rcases List.mem_cons.mp hn with rfl | hn'
                  · exact Or.inr (.base hnamemem)
                  · exact Or.inl hn'
                · intro n hn hn'
                  rcases List.mem_cons.mp hn with rfl | hmem
                  · rw [hres]; rfl
                  · exact absurd hmem hn'
              have wbody' : WalkOut tmpl bi (.templateNode name pipe)
                  ⟨s.argsMap, name :: s.processed⟩ s1 := by
                obtain ⟨l1, n1, sh1, p1, q1, r1⟩ := wbody
                refine ⟨l1, n1, sh1, ?_, ?_, r1⟩
                · intro x hx
                  rcases p1 x hx with hx' | hx' | ⟨n, hn, hv⟩
                  · exact Or.inl hx'
                  · refine Or.inr (Or.inr ⟨name, ?_, ?_⟩)
                    · exact stateLE_processed_sub l1 name (by simp)
                    · simp [varsRes, hres, hx']
                  · exact Or.inr (Or.inr ⟨n, hn, hv⟩)
                · intro n hn
                  rcases q1 n hn with hn' | hn'
                  · exact Or.inl hn'
                  · exact Or.inr (reaches_through hnamemem hres hn')
              have wpipe : WalkOut tmpl bi (.templateNode name pipe) s1 r := walkOut_weaken (ih h)
                (by simp [Node.varsB])
                (fun m hm' => reaches_mono (by simp [Node.refs]; tauto) hm')
              exact walkOut_trans (walkOut_trans wmark wbody') wpipe

/-! ### Completeness of the walk and the acyclicity certificate (M4 + M5) -/

/-- The memo invariant: every processed template that is not currently open
(on the path) has its body's variables already collected and its body's
references already processed. -/
def WalkInv (tmpl : Tmpl) (bi : List String) (s : WalkState)
    (path : List String) : Prop :=
  ∀ n ∈ s.processed, n ∉ path → ∀ b, resolveRef tmpl n = some b →
    (∀ x ∈ b.varsB bi, x ∈ s.argsMap) ∧ (∀ r ∈ b.refs, r ∈ s.processed)

/-- An acyclicity certificate for the processed set: references of finished
(processed, not open) templates stay among finished templates and strictly
decrease a rank. -/
def Cert (tmpl : Tmpl) (proc path : List String) (rank : String → Nat) : Prop :=
  ∀ n ∈ proc, n ∉ path → ∀ b, resolveRef tmpl n = some b → ∀ r ∈ b.refs,
    r ∈ proc ∧ r ∉ path ∧ rank r < rank n

/-- List maximum (for extending a certificate rank). -/
def listMax : List Nat → Nat
  | [] => 0
  | n :: rest => max n (listMax rest)

theorem le_listMax {x : Nat} {l : List Nat} (h : x ∈ l) : x ≤ listMax l := by
  induction l with
  | nil => cases h
  | cons n rest ih =>
    rcases List.mem_cons.mp h with rfl | hmem
    · simp [listMax]
    · exact le_trans (ih hmem) (by simp [listMax])

theorem varsListB_mem_ex {bi : List String} {x : String} {ns : List Node}
    (h : x ∈ Node.varsListB bi ns) : ∃ c ∈ ns, x ∈ c.varsB bi := by
  induction ns with
  | nil => cases h
  | cons n rest ih =>
    rcases List.mem_append.mp h with hx | hx
    · exact ⟨n, List.mem_cons_self _ _, hx⟩
    · obtain ⟨c, hc, hm⟩ := ih hx
      exact ⟨c, List.mem_cons_of_mem _ hc, hm⟩

theorem refsList_mem_ex {x : String} {ns : List Node}
    (h : x ∈ Node.refsList ns) : ∃ c ∈ ns, x ∈ c.refs := by
  induction ns with
  | nil => cases h
  | cons n rest ih =>
    rcases List.mem_append.mp h with hx | hx
    · exact ⟨n, List.mem_cons_self _ _, hx⟩
    · obtain ⟨c, hc, hm⟩ := ih hx
      exact ⟨c, List.mem_cons_of_mem _ hc, hm⟩

/-- The composable part of `walk_complete`'s conclusion. -/
def CompStep (tmpl : Tmpl) (bi : List String) (path : List String)
    (b b' : WalkState) : Prop :=
  StateLE b b' ∧
  (WalkInv tmpl bi b path →
    WalkInv tmpl bi b' path ∧
    ∀ rank, Cert tmpl b.processed path rank →
      ∃ rank', Cert tmpl b'.processed path rank')

theorem compStep_refl (tmpl : Tmpl) (bi : List String) (path : List String)
    (b : WalkState) : CompStep tmpl bi path b b :=
  ⟨stateLE_refl b, fun h => ⟨h, fun rank hc => ⟨rank, hc⟩⟩⟩

theorem compStep_trans {tmpl : Tmpl} {bi : List String} {path : List String}
    {a b c : WalkState} (h1 : CompStep tmpl bi path a b)
    (h2 : CompStep tmpl bi path b c) : CompStep tmpl bi path a c := by
  refine ⟨stateLE_trans h1.1 h2.1, fun hinv => ?_⟩
  obtain ⟨hinvb, hcb⟩ := h1.2 hinv
  obtain ⟨hinvc, hcc⟩ := h2.2 hinvb
  exact ⟨hinvc, fun rank hc => (hcb rank hc).elim fun r1 h1' => hcc r1 h1'⟩

/-- M4 + M5: what a successful walk guarantees given the memo invariant:
the invariant is preserved, the walked tree's variables are collected, its
references are processed and off the path, and any acyclicity certificate
extends. -/
theorem walk_complete {tmpl : Tmpl} {bi : List String} :
    ∀ {fuel : Nat} {node : Node} {s : WalkState} {path : List String}
      {r : WalkState},
      walkNodes tmpl bi fuel node s path = .ok r → WalkInv tmpl bi s path →
      WalkInv tmpl bi r path ∧
      (∀ x ∈ node.varsB bi, x ∈ r.argsMap) ∧
      (∀ m ∈ node.refs, m ∈ r.processed) ∧
      (∀ m ∈ node.refs, m ∉ path) ∧
      (∀ rank, Cert tmpl s.processed path rank →
        ∃ rank', Cert tmpl r.processed path rank') := by
  intro fuel
  induction fuel with
  | zero => intro node s path r h; rw [walk_zero] at h; cases h
  | succ fuel ih =>
    have ihStep : ∀ {node : Node} {s : WalkState} {path : List String}
        {r : WalkState}, walkNodes tmpl bi fuel node s path = .ok r →
        CompStep tmpl bi path s r := by
      intro node s path r h
      exact ⟨walk_mono h, fun hinv =>
        ⟨(ih h hinv).1, (ih h hinv).2.2.2.2⟩⟩
    intro node s path r h hinv
    cases node with
    | nilNode =>
      rw [walk_nilNode] at h; cases h
      exact ⟨hinv, by simp [Node.varsB], by simp [Node.refs], by simp [Node.refs],
        fun rank hc => ⟨rank, hc⟩⟩
    | text t =>
      rw [walk_text] at h; cases h
      exact ⟨hinv, by simp [Node.varsB], by simp [Node.refs], by simp [Node.refs],
        fun rank hc => ⟨rank, hc⟩⟩
    | dot =>
      rw [walk_dot] at h; cases h
      exact ⟨hinv, by simp [Node.varsB], by simp [Node.refs], by simp [Node.refs],
        fun rank hc => ⟨rank, hc⟩⟩
    | identifier t =>
      rw [walk_identifier] at h; cases h
      exact ⟨hinv, by simp [Node.varsB], by simp [Node.refs], by simp [Node.refs],
        fun rank hc => ⟨rank, hc⟩⟩
    | stringConst t =>
      rw [walk_stringConst] at h; cases h
      exact ⟨hinv, by simp [Node.varsB], by simp [Node.refs], by simp [Node.refs],
        fun rank hc => ⟨rank, hc⟩⟩
    | action p =>
      rw [walk_action] at h
      obtain ⟨h1, h2, h3, h4, h5⟩ := ih h hinv
      exact ⟨h1, by simpa [Node.varsB] using h2, by simpa [Node.refs] using h3,
        by simpa [Node.refs] using h4, h5⟩
    | ifNode p l e =>
      rw [walk_ifNode] at h
      cases h1 : walkNodes tmpl bi fuel p s path with
      | error e' => rw [h1, ebind_error] at h; cases h
      | ok s1 =>
        rw [h1, ebind_ok] at h
        cases h2 : walkNodes tmpl bi fuel l s1 path with
        | error e' => rw [h2, ebind_error] at h; cases h
        | ok s2 =>
          rw [h2, ebind_ok] at h
          obtain ⟨i1, v1, r1, o1, c1⟩ := ih h1 hinv
          obtain ⟨i2, v2, r2, o2, c2⟩ := ih h2 i1
          obtain ⟨i3, v3, r3, o3, c3⟩ := ih h i2
          have m2 : StateLE s1 s2 := walk_mono h2
          have m3 : StateLE s2 r := walk_mono h
          refine ⟨i3, ?_, ?_, ?_, ?_⟩
          · intro x hx
            simp only [Node.varsB] at hx
            rcases List.mem_append.mp hx with hx | hx
            rcases List.mem_append.mp hx with hx | hx
            · exact m3.2 x (m2.2 x (v1 x hx))
            · exact m3.2 x (v2 x hx)
            · exact v3 x hx
          · intro m hm
            simp only [Node.refs] at hm
            rcases List.mem_append.mp hm with hm | hm
            rcases List.mem_append.mp hm with hm | hm
            · exact stateLE_processed_sub m3 m (stateLE_processed_sub m2 m (r1 m hm))
            · exact stateLE_processed_sub m3 m (r2 m hm)
            · exact r3 m hm
          · intro m hm
            simp only [Node.refs] at hm
            rcases List.mem_append.mp hm with hm | hm
            rcases List.mem_append.mp hm with hm | hm
            · exact o1 m hm
            · exact o2 m hm
            · exact o3 m hm
          · intro rank hc
            obtain ⟨ra, hca⟩ := c1 rank hc
            obtain ⟨rb, hcb⟩ := c2 ra hca
            exact c3 rb hcb
    | rangeNode p l e =>
      rw [walk_rangeNode] at h
      cases h1 : walkNodes tmpl bi fuel p s path with
      | error e' => rw [h1, ebind_error] at h; cases h
      | ok s1 =>
        rw [h1, ebind_ok] at h
        cases h2 : walkNodes tmpl bi fuel l s1 path with
        | error e' => rw [h2, ebind_error] at h; cases h
        | ok s2 =>
          rw [h2, ebind_ok] at h
          obtain ⟨i1, v1, r1, o1, c1⟩ := ih h1 hinv
          obtain ⟨i2, v2, r2, o2, c2⟩ := ih h2 i1
          obtain ⟨i3, v3, r3, o3, c3⟩ := ih h i2
          have m2 : StateLE s1 s2 := walk_mono h2
          have m3 : StateLE s2 r := walk_mono h
          refine ⟨i3, ?_, ?_, ?_, ?_⟩
          · intro x hx
            simp only [Node.varsB] at hx
            rcases List.mem_append.mp hx with hx | hx
            rcases List.mem_append.mp hx with hx | hx
            · exact m3.2 x (m2.2 x (v1 x hx))
            · exact m3.2 x (v2 x hx)
            · exact v3 x hx
          · intro m hm
            simp only [Node.refs] at hm
            rcases List.mem_append.mp hm with hm | hm
            rcases List.mem_append.mp hm with hm | hm
            · exact stateLE_processed_sub m3 m (stateLE_processed_sub m2 m (r1 m hm))
            · exact stateLE_processed_sub m3 m (r2 m hm)
            · exact r3 m hm
          · intro m hm
            simp only [Node.refs] at hm
            rcases List.mem_append.mp hm with hm | hm
            rcases List.mem_append.mp hm with hm | hm
            · exact o1 m hm
            · exact o2 m hm
            · exact o3 m hm
          · intro rank hc
            obtain ⟨ra, hca⟩ := c1 rank hc
            obtain ⟨rb, hcb⟩ := c2 ra hca
            exact c3 rb hcb
    | withNode p l e =>
      rw [walk_withNode] at h
      cases h1 : walkNodes tmpl bi fuel p s path with
      | error e' => rw [h1, ebind_error] at h; cases h
      | ok s1 =>
        rw [h1, ebind_ok] at h
        cases h2 : walkNodes tmpl bi fuel l s1 path with
        | error e' => rw [h2, ebind_error] at h; cases h
        | ok s2 =>
          rw [h2, ebind_ok] at h
          obtain ⟨i1, v1, r1, o1, c1⟩ := ih h1 hinv
          obtain ⟨i2, v2, r2, o2, c2⟩ := ih h2 i1
          obtain ⟨i3, v3, r3, o3, c3⟩ := ih h i2
          have m2 : StateLE s1 s2 := walk_mono h2
          have m3 : StateLE s2 r := walk_mono h
          refine ⟨i3, ?_, ?_, ?_, ?_⟩
          · intro x hx
            simp only [Node.varsB] at hx
            rcases List.mem_append.mp hx with hx | hx
            rcases List.mem_append.mp hx with hx | hx
            · exact m3.2 x (m2.2 x (v1 x hx))
            · exact m3.2 x (v2 x hx)
            · exact v3 x hx
          · intro m hm
            simp only [Node.refs] at hm
            rcases List.mem_append.mp hm with hm | hm
            rcases List.mem_append.mp hm with hm | hm
            · exact stateLE_processed_sub m3 m (stateLE_processed_sub m2 m (r1 m hm))
            · exact stateLE_processed_sub m3 m (r2 m hm)
            · exact r3 m hm
          · intro m hm
            simp only [Node.refs] at hm
            rcases List.mem_append.mp hm with hm | hm
            rcases List.mem_append.mp hm with hm | hm
            · exact o1 m hm
            · exact o2 m hm
            · exact o3 m hm
          · intro rank hc
            obtain ⟨ra, hca⟩ := c1 rank hc
            obtain ⟨rb, hcb⟩ := c2 ra hca
            exact c3 rb hcb
    | listNode ns =>
      rw [walk_listNode] at h
      have hchain := foldlM_ok_chain (CompStep tmpl bi path)
        (compStep_refl tmpl bi path) (fun h1 h2 => compStep_trans h1 h2) _ ns
        (fun c hc b b' hf => ihStep hf) s r h
      obtain ⟨hR, hall⟩ := hchain
      refine ⟨(hR.2 hinv).1, ?_, ?_, ?_, fun rank hc => (hR.2 hinv).2 rank hc⟩
      · intro x hx
        simp only [Node.varsB] at hx
        obtain ⟨c, hc, hxc⟩ := varsListB_mem_ex hx
        obtain ⟨b₁, b₂, hf, hRb, hRr⟩ := hall c hc
        have hinv₁ : WalkInv tmpl bi b₁ path := (hRb.2 hinv).1
        exact hRr.1.2 x ((ih hf hinv₁).2.1 x hxc)
      · intro m hm
        simp only [Node.refs] at hm
        obtain ⟨c, hc, hmc⟩ := refsList_mem_ex hm
        obtain ⟨b₁, b₂, hf, hRb, hRr⟩ := hall c hc
        have hinv₁ : WalkInv tmpl bi b₁ path := (hRb.2 hinv).1
        exact stateLE_processed_sub hRr.1 m ((ih hf hinv₁).2.2.1 m hmc)
      · intro m hm
        simp only [Node.refs] at hm
        obtain ⟨c, hc, hmc⟩ := refsList_mem_ex hm
        obtain ⟨b₁, b₂, hf, hRb, hRr⟩ := hall c hc
        have hinv₁ : WalkInv tmpl bi b₁ path := (hRb.2 hinv).1
        exact (ih hf hinv₁).2.2.2.1 m hmc
    | pipeNode ns =>
      rw [walk_pipeNode] at h
      have hchain := foldlM_ok_chain (CompStep tmpl bi path)
        (compStep_refl tmpl bi path) (fun h1 h2 => compStep_trans h1 h2) _ ns
        (fun c hc b b' hf => ihStep hf) s r h
      obtain ⟨hR, hall⟩ := hchain
      refine ⟨(hR.2 hinv).1, ?_, ?_, ?_, fun rank hc => (hR.2 hinv).2 rank hc⟩
      · intro x hx
        simp only [Node.varsB] at hx
        obtain ⟨c, hc, hxc⟩ := varsListB_mem_ex hx
        obtain ⟨b₁, b₂, hf, hRb, hRr⟩ := hall c hc
        have hinv₁ : WalkInv tmpl bi b₁ path := (hRb.2 hinv).1
        exact hRr.1.2 x ((ih hf hinv₁).2.1 x hxc)
      · intro m hm
        simp only [Node.refs] at hm
        obtain ⟨c, hc, hmc⟩ := refsList_mem_ex hm
        obtain ⟨b₁, b₂, hf, hRb, hRr⟩ := hall c hc
        have hinv₁ : WalkInv tmpl bi b₁ path := (hRb.2 hinv).1
        exact stateLE_processed_sub hRr.1 m ((ih hf hinv₁).2.2.1 m hmc)
      · intro m hm
        simp only [Node.refs] at hm
        obtain ⟨c, hc, hmc⟩ := refsList_mem_ex hm
        obtain ⟨b₁, b₂, hf, hRb, hRr⟩ := hall c hc
        have hinv₁ : WalkInv tmpl bi b₁ path := (hRb.2 hinv).1
        exact (ih hf hinv₁).2.2.2.1 m hmc
    | command ns =>
      rw [walk_command] at h
      have hchain := foldlM_ok_chain (CompStep tmpl bi path)
        (compStep_refl tmpl bi path) (fun h1 h2 => compStep_trans h1 h2) _ ns
        (fun c hc b b' hf => ihStep hf) s r h
      obtain ⟨hR, hall⟩ := hchain
      refine ⟨(hR.2 hinv).1, ?_, ?_, ?_, fun rank hc => (hR.2 hinv).2 rank hc⟩
      · intro x hx
        simp only [Node.varsB] at hx
        obtain ⟨c, hc, hxc⟩ := varsListB_mem_ex hx
        obtain ⟨b₁, b₂, hf, hRb, hRr⟩ := hall c hc
        have hinv₁ : WalkInv tmpl bi b₁ path := (hRb.2 hinv).1
        exact hRr.1.2 x ((ih hf hinv₁).2.1 x hxc)
      · intro m hm
        simp only [Node.refs] at hm
        obtain ⟨c, hc, hmc⟩ := refsList_mem_ex hm
        obtain ⟨b₁, b₂, hf, hRb, hRr⟩ := hall c hc
        have hinv₁ : WalkInv tmpl bi b₁ path := (hRb.2 hinv).1
        exact stateLE_processed_sub hRr.1 m ((ih hf hinv₁).2.2.1 m hmc)
      · intro m hm
        simp only [Node.refs] at hm
        obtain ⟨c, hc, hmc⟩ := refsList_mem_ex hm
        obtain ⟨b₁, b₂, hf, hRb, hRr⟩ := hall c hc
        have hinv₁ : WalkInv tmpl bi b₁ path := (hRb.2 hinv).1
        exact (ih hf hinv₁).2.2.2.1 m hmc
    | field is =>
      cases is with
      | nil =>
        rw [walk_field_nil] at h; cases h
        exact ⟨hinv, by simp [Node.varsB], by simp [Node.refs], by simp [Node.refs],
          fun rank hc => ⟨rank, hc⟩⟩
      | cons i rest =>
        rw [walk_field_cons] at h
        split at h
        · rename_i hbi
          cases h
          exact ⟨hinv, by simp [Node.varsB, hbi], by simp [Node.refs],
            by simp [Node.refs], fun rank hc => ⟨rank, hc⟩⟩
        · rename_i hbi
          cases h
          refine ⟨?_, by simp [Node.varsB, hbi, self_mem_insertArg],
            by simp [Node.refs], by simp [Node.refs], fun rank hc => ⟨rank, hc⟩⟩
          intro n hn hnp b hb
          obtain ⟨hv, hr⟩ := hinv n hn hnp b hb
          exact ⟨fun x hx => insertArg_sub (hv x hx), hr⟩
    | variableNode is =>
      cases is with
      | nil =>
        rw [walk_variable_nil] at h; cases h
        exact ⟨hinv, by simp [Node.varsB], by simp [Node.refs], by simp [Node.refs],
          fun rank hc => ⟨rank, hc⟩⟩
      | cons i rest =>
        rw [walk_variable_cons] at h
        split at h
        · rename_i hdollar
          cases h
          exact ⟨hinv, by simp [Node.varsB, hdollar], by simp [Node.refs],
            by simp [Node.refs], fun rank hc => ⟨rank, hc⟩⟩
        · rename_i hdollar
          split at h
          · rename_i hbi
            cases h
            exact ⟨hinv, by simp [Node.varsB, hdollar, hbi], by simp [Node.refs],
              by simp [Node.refs], fun rank hc => ⟨rank, hc⟩⟩
          · rename_i hbi
            cases h
            refine ⟨?_, by simp [Node.varsB, hdollar, hbi, self_mem_insertArg],
              by simp [Node.refs], by simp [Node.refs], fun rank hc => ⟨rank, hc⟩⟩
            intro n hn hnp b hb
            obtain ⟨hv, hr⟩ := hinv n hn hnp b hb
            exact ⟨fun x hx => insertArg_sub (hv x hx), hr⟩
    | templateNode name pipe =>
      by_cases hp : name ∈ path
      · rw [walk_template_inPath tmpl bi fuel s path pipe hp] at h; cases h
      · by_cases hm : name ∈ s.processed
        · rw [walk_template_processed tmpl bi fuel s path pipe hp hm] at h
          obtain ⟨i1, v1, r1, o1, c1⟩ := ih h hinv
          have mono := walk_mono h
          refine ⟨i1, by simpa [Node.varsB] using v1, ?_, ?_, c1⟩
          · intro m hmem
            simp only [Node.refs, List.mem_cons] at hmem
            rcases hmem with rfl | hmem
            · exact stateLE_processed_sub mono m hm
            · exact r1 m hmem
          · intro m hmem
            simp only [Node.refs, List.mem_cons] at hmem
            rcases hmem with rfl | hmem
            · exact hp
            · exact o1 m hmem
        · cases hres : resolveRef tmpl name with
          | none =>
            rw [walk_template_missing tmpl bi fuel s path pipe hp hm hres] at h
            cases h
          | some body =>
            rw [walk_template_body tmpl bi fuel s path pipe hp hm hres] at h
            cases h1 : walkNodes tmpl bi fuel body ⟨s.argsMap, name :: s.processed⟩
                (path ++ [name]) with
            | error e' => rw [h1, ebind_error] at h; cases h
            | ok s1 =>
              rw [h1, ebind_ok] at h
              -- the marked state satisfies the invariant for the longer path
              have hinv' : WalkInv tmpl bi ⟨s.argsMap, name :: s.processed⟩
                  (path ++ [name]) := by
                intro n hn hnp b hb
                rcases List.mem_cons.mp hn with rfl | hn'
                · exact absurd (by simp) hnp
                · have hnp' : n ∉ path := fun hc => hnp (List.mem_append_left _ hc)
                  obtain ⟨hv, hr⟩ := hinv n hn' hnp' b hb
                  exact ⟨hv, fun x hx => List.mem_cons_of_mem _ (hr x hx)⟩
              obtain ⟨ib, vb, rb, ob, cb⟩ := ih h1 hinv'
              have monob : StateLE ⟨s.argsMap, name :: s.processed⟩ s1 :=
                walk_mono h1
              have hnameproc : name ∈ s1.processed :=
                stateLE_processed_sub monob name (by simp)
              -- pop the path entry: the invariant for the shorter path
              have hinv1 : WalkInv tmpl bi s1 path := by
                intro n hn hnp b hb
                by_cases hne : n = name
                · subst hne
                  rw [hres] at hb
                  cases hb
                  exact ⟨vb, rb⟩
                · have : n ∉ path ++ [name] := by
                    intro hc
                    rcases List.mem_append.mp hc with hc | hc
                    · exact hnp hc
                    · exact hne (List.mem_singleton.mp hc)
                  exact ib n hn this b hb
              obtain ⟨i2, v2, r2, o2, c2⟩ := ih h hinv1
              have mono2 : StateLE s1 r := walk_mono h
              refine ⟨i2, by simpa [Node.varsB] using v2, ?_, ?_, ?_⟩
              · intro m hmem
                simp only [Node.refs, List.mem_cons] at hmem
                rcases hmem with rfl | hmem
                · exact stateLE_processed_sub mono2 m hnameproc
                · exact r2 m hmem
              · intro m hmem
                simp only [Node.refs, List.mem_cons] at hmem
                rcases hmem with rfl | hmem
                · exact hp
                · exact o2 m hmem
              · intro rank hc
                -- extend the certificate to the longer path
                have hc' : Cert tmpl (name :: s.processed) (path ++ [name]) rank := by
                  intro n hn hnp b hb rr hrr
                  rcases List.mem_cons.mp hn with rfl | hn'
                  · exact absurd (by simp) hnp
                  · have hnp2 : n ∉ path := fun hx => hnp (List.mem_append_left _ hx)
                    obtain ⟨hr1, hr2, hr3⟩ := hc n hn' hnp2 b hb rr hrr
                    refine ⟨List.mem_cons_of_mem _ hr1, ?_, hr3⟩
                    intro hx
                    rcases List.mem_append.mp hx with hx | hx
                    · exact hr2 hx
                    · have : rr = name := List.mem_singleton.mp hx
                      subst this
                      exact hm hr1
                obtain ⟨rank1, hcert1⟩ := cb rank hc'
                -- pop: give the finished template a rank above everything
                set mx := listMax (s1.processed.map rank1) with hmx
                have hler : ∀ m ∈ s1.processed, rank1 m ≤ mx := by
                  intro m hmem
                  exact le_listMax (List.mem_map_of_mem _ hmem)
                have hcert2 : Cert tmpl s1.processed path
                    (fun m => if m = name then mx + 1 else rank1 m) := by
                  intro n hn hnp b hb rr hrr
                  by_cases hne : n = name
                  · cases hne
                    rw [hres] at hb
                    cases hb
                    have hrrproc : rr ∈ s1.processed := rb rr hrr
                    have hrroff := ob rr hrr
                    have hrrne : rr ≠ name := by
                      intro hx
                      exact hrroff (by simp [hx])
                    have hrrpath : rr ∉ path :=
                      fun hx => hrroff (List.mem_append_left _ hx)
                    refine ⟨hrrproc, hrrpath, ?_⟩
                    simp only [if_neg hrrne, if_pos rfl]
                    exact Nat.lt_succ_of_le (hler rr hrrproc)
                  · have hnp' : n ∉ path ++ [name] := by
                      intro hx
                      rcases List.mem_append.mp hx with hx | hx
                      · exact hnp hx
                      · exact hne (List.mem_singleton.mp hx)
                    obtain ⟨hr1, hr2, hr3⟩ := hcert1 n hn hnp' b hb rr hrr
                    have hrrne : rr ≠ name := by
                      intro hx
                      subst hx
                      exact hr2 (List.mem_append_right _ (by simp))
                    have hrrpath : rr ∉ path :=
                      fun hx => hr2 (List.mem_append_left _ hx)
                    refine ⟨hr1, hrrpath, ?_⟩
                    simp only [hrrne, hne, if_false]
                    exact hr3
                exact c2 _ hcert2

/-! ### Sufficiency of the canonical fuel (M6) -/

theorem append_data (a b : String) : (a ++ b).data = a.data ++ b.data := by
  cases a; cases b; rfl

theorem cycle_ne_fuel (chain : List String) : cycleErrMsg chain ≠ fuelErrMsg := by
  intro h
  have h2 := congrArg String.data h
  rw [cycleErrMsg, append_data] at h2
  have h3 := congrArg List.head? h2
  have h4 : (some 'c' : Option Char) = some 'w' := h3
  cases h4

theorem missing_ne_fuel (name : String) : missingErrMsg name ≠ fuelErrMsg := by
  intro h
  have h2 := congrArg String.data h
  rw [missingErrMsg, append_data, append_data] at h2
  have h3 := congrArg List.head? h2
  have h4 : (some 'r' : Option Char) = some 'w' := h3
  cases h4

theorem alookup_some_mem_keys {α : Type} {l : List (String × α)} {n : String}
    {v : α} (h : alookup l n = some v) : n ∈ l.map Prod.fst := by
  induction l with
  | nil => cases h
  | cons kv rest ih =>
    obtain ⟨k, v'⟩ := kv
    unfold alookup at h
    split at h
    · rename_i heq
      subst heq
      simp
    · simpa using Or.inr (ih h)

theorem isPrefixOf_append_self (l m : List Char) : l.isPrefixOf (l ++ m) = true := by
  induction l with
  | nil => cases m <;> rfl
  | cons c rest ih => simpa [List.isPrefixOf] using ih

theorem hasTmplExt_append (name : String) :
    hasTmplExt (name ++ templateExt) = true := by
  unfold hasTmplExt strHasSuf
  rw [append_data]
  unfold List.isSuffixOf
  rw [List.reverse_append]
  exact isPrefixOf_append_self _ _

theorem trimExt_append (name : String) : trimExt (name ++ templateExt) = name := by
  have hext := hasTmplExt_append name
  unfold hasTmplExt at hext
  unfold trimExt strTrimSuf
  rw [if_pos hext]
  cases name with
  | mk l =>
    congr 1
    rw [append_data]
    show List.take ((l ++ templateExt.data).length - templateExt.data.length)
      (l ++ templateExt.data) = l
    rw [List.length_append]
    have hlen : l.length + templateExt.data.length - templateExt.data.length =
        l.length := by omega
    rw [hlen, List.take_left]

theorem resolveRef_of_lookup_some {tmpl : Tmpl} {name : String} {b : Node}
    (h : alookup tmpl name = some b) : resolveRef tmpl name = some b := by
  unfold resolveRef
  rw [h]

theorem resolveRef_of_lookup_none {tmpl : Tmpl} {name : String}
    (h : alookup tmpl name = none) :
    resolveRef tmpl name =
      (if hasTmplExt name then none else alookup tmpl (name ++ templateExt)) := by
  unfold resolveRef
  rw [h]

theorem cand_of_resolve {tmpl : Tmpl} {name : String} {b : Node}
    (h : resolveRef tmpl name = some b) : name ∈ candNames tmpl := by
  unfold candNames
  rw [List.mem_dedup]
  cases hl : alookup tmpl name with
  | some v =>
    exact List.mem_append_left _ (alookup_some_mem_keys hl)
  | none =>
    rw [resolveRef_of_lookup_none hl] at h
    split at h
    · cases h
    · refine List.mem_append_right _ ?_
      rw [List.mem_filterMap]
      refine ⟨name ++ templateExt, alookup_some_mem_keys h, ?_⟩
      rw [if_pos (hasTmplExt_append name), trimExt_append]

theorem sum_map_filter_le (f : String → Nat) (p q : String → Bool)
    (h : ∀ x, p x = true → q x = true) (l : List String) :
    ((l.filter p).map f).sum ≤ ((l.filter q).map f).sum := by
  induction l with
  | nil => simp
  | cons x rest ih =>
    by_cases hp : p x = true
    · rw [List.filter_cons_of_pos hp, List.filter_cons_of_pos (h x hp)]
      simpa using ih
    · rw [List.filter_cons_of_neg (by simpa using hp)]
      by_cases hq : q x = true
      · rw [List.filter_cons_of_pos hq]
        simp only [List.map_cons, List.sum_cons]
        omega
      · rw [List.filter_cons_of_neg (by simpa using hq)]
        exact ih

theorem remWork_mono {tmpl : Tmpl} {p1 p2 : List String}
    (h : ∀ n ∈ p1, n ∈ p2) : remWork tmpl p2 ≤ remWork tmpl p1 := by
  unfold remWork
  refine sum_map_filter_le _ _ _ ?_ _
  intro x hx
  simp only [decide_eq_true_eq] at hx ⊢
  intro hmem
  exact hx (h x hmem)

theorem remWork_le_of_stateLE (tmpl : Tmpl) {s r : WalkState}
    (h : StateLE s r) : remWork tmpl r.processed ≤ remWork tmpl s.processed :=
  remWork_mono (stateLE_processed_sub h)

theorem sum_remove_one (w : String → Nat) (name : String) (processed : List String)
    (hnp : name ∉ processed) :
    ∀ (l : List String), l.Nodup → name ∈ l →
      ((l.filter (fun n => decide (n ∉ name :: processed))).map w).sum + w name ≤
      ((l.filter (fun n => decide (n ∉ processed))).map w).sum := by
  intro l
  induction l with
  | nil => intro _ h; cases h
  | cons x rest ih =>
    intro hnd hmem
    rcases List.mem_cons.mp hmem with rfl | hmem'
    · rw [List.filter_cons_of_neg (by simp), List.filter_cons_of_pos (by simpa using hnp)]
      simp only [List.map_cons, List.sum_cons]
      have hsub : ((rest.filter (fun n => decide (n ∉ name :: processed))).map w).sum ≤
          ((rest.filter (fun n => decide (n ∉ processed))).map w).sum := by
        refine sum_map_filter_le _ _ _ ?_ _
        intro y hy
        simp only [decide_eq_true_eq, List.mem_cons] at hy ⊢
        intro hc
        exact hy (Or.inr hc)
      omega
    · have hxne : x ≠ name := by
        rintro rfl
        exact (List.nodup_cons.mp hnd).1 hmem'
      have ihr := ih (List.nodup_cons.mp hnd).2 hmem'
      by_cases hx : x ∈ processed
      · rw [List.filter_cons_of_neg (by simp [hx]),
          List.filter_cons_of_neg (by simp [hx])]
        exact ihr
      · rw [List.filter_cons_of_pos (by simp [hx, hxne]),
          List.filter_cons_of_pos (by simp [hx])]
        simp only [List.map_cons, List.sum_cons]
        omega

theorem remWork_insert_lt {tmpl : Tmpl} {name : String} {b : Node}
    {processed : List String} (hres : resolveRef tmpl name = some b)
    (hnp : name ∉ processed) :
    b.size + remWork tmpl (name :: processed) < remWork tmpl processed := by
  have hcand : name ∈ candNames tmpl := cand_of_resolve hres
  have hnd : (candNames tmpl).Nodup := List.nodup_dedup _
  have := sum_remove_one (refWeight tmpl) name processed hnp (candNames tmpl) hnd hcand
  unfold remWork
  have hw : refWeight tmpl name = 1 + b.size := by
    unfold refWeight
    rw [hres]
  omega

/-- M6: with fuel above the size-plus-remaining-work bound the walker never
reports fuel exhaustion, whatever else happens. -/
theorem walk_nofuel {tmpl : Tmpl} {bi : List String} :
    ∀ {fuel : Nat} {node : Node} {s : WalkState} {path : List String},
      node.size + remWork tmpl s.processed < fuel →
      walkNodes tmpl bi fuel node s path ≠ .error fuelErrMsg := by
  intro fuel
  induction fuel with
  | zero => intro node s path hb; exact absurd hb (by omega)
  | succ fuel ih =>
    intro node s path hb h
    cases node with
    | nilNode => rw [walk_nilNode] at h; cases h
    | text t => rw [walk_text] at h; cases h
    | dot => rw [walk_dot] at h; cases h
    | identifier t => rw [walk_identifier] at h; cases h
    | stringConst t => rw [walk_stringConst] at h; cases h
    | action p =>
      rw [walk_action] at h
      refine ih ?_ h
      simp only [Node.size] at hb
      omega
    | ifNode p l e =>
      rw [walk_ifNode] at h
      simp only [Node.size] at hb
      cases h1 : walkNodes tmpl bi fuel p s path with
      | error e' =>
        rw [h1, ebind_error] at h
        cases h
        exact ih (by omega) h1
      | ok s1 =>
        rw [h1, ebind_ok] at h
        have hr1 := remWork_le_of_stateLE tmpl (walk_mono h1)
        cases h2 : walkNodes tmpl bi fuel l s1 path with
        | error e' =>
          rw [h2, ebind_error] at h
          cases h
          exact ih (by omega) h2
        | ok s2 =>
          rw [h2, ebind_ok] at h
          have hr2 := remWork_le_of_stateLE tmpl (walk_mono h2)
          exact ih (by omega) h
    | rangeNode p l e =>
      rw [walk_rangeNode] at h
      simp only [Node.size] at hb
      cases h1 : walkNodes tmpl bi fuel p s path with
      | error e' =>
        rw [h1, ebind_error] at h
        cases h
        exact ih (by omega) h1
      | ok s1 =>
        rw [h1, ebind_ok] at h
        have hr1 := remWork_le_of_stateLE tmpl (walk_mono h1)
        cases h2 : walkNodes tmpl bi fuel l s1 path with
        | error e' =>
          rw [h2, ebind_error] at h
          cases h
          exact ih (by omega) h2
        | ok s2 =>
          rw [h2, ebind_ok] at h
          have hr2 := remWork_le_of_stateLE tmpl (walk_mono h2)
          exact ih (by omega) h
    | withNode p l e =>
      rw [walk_withNode] at h
      simp only [Node.size] at hb
      cases h1 : walkNodes tmpl bi fuel p s path with
      | error e' =>
        rw [h1, ebind_error] at h
        cases h
        exact ih (by omega) h1
      | ok s1 =>
        rw [h1, ebind_ok] at h
        have hr1 := remWork_le_of_stateLE tmpl (walk_mono h1)
        cases h2 : walkNodes tmpl bi fuel l s1 path with
        | error e' =>
          rw [h2, ebind_error] at h
          cases h
          exact ih (by omega) h2
        | ok s2 =>
          rw [h2, ebind_ok] at h
          have hr2 := remWork_le_of_stateLE tmpl (walk_mono h2)
          exact ih (by omega) h
    | listNode ns =>
      rw [walk_listNode] at h
      simp only [Node.size] at hb
      obtain ⟨c, hc, b', hR, hf⟩ := foldlM_error_chain StateLE stateLE_refl
        (fun h1 h2 => stateLE_trans h1 h2) _ ns (fun a _ b b' hf => walk_mono hf) s _ h
      have hsz := sizeList_le hc
      have hrw := remWork_le_of_stateLE tmpl hR
      exact ih (by omega) hf
    | pipeNode ns =>
      rw [walk_pipeNode] at h
      simp only [Node.size] at hb
      obtain ⟨c, hc, b', hR, hf⟩ := foldlM_error_chain StateLE stateLE_refl
        (fun h1 h2 => stateLE_trans h1 h2) _ ns (fun a _ b b' hf => walk_mono hf) s _ h
      have hsz := sizeList_le hc
      have hrw := remWork_le_of_stateLE tmpl hR
      exact ih (by omega) hf
    | command ns =>
      rw [walk_command] at h
      simp only [Node.size] at hb
      obtain ⟨c, hc, b', hR, hf⟩ := foldlM_error_chain StateLE stateLE_refl
        (fun h1 h2 => stateLE_trans h1 h2) _ ns (fun a _ b b' hf => walk_mono hf) s _ h
      have hsz := sizeList_le hc
      have hrw := remWork_le_of_stateLE tmpl hR
      exact ih (by omega) hf
    | field is =>
      cases is with
      | nil => rw [walk_field_nil] at h; cases h
      | cons i rest =>
        rw [walk_field_cons] at h
        split at h
        · cases h
        · cases h
    | variableNode is =>
      cases is with
      | nil => rw [walk_variable_nil] at h; cases h
      | cons i rest =>
        rw [walk_variable_cons] at h
        split at h
        · cases h
        · split at h
          · cases h
          · cases h
    | templateNode name pipe =>
      simp only [Node.size] at hb
      by_cases hp : name ∈ path
      · rw [walk_template_inPath tmpl bi fuel s path pipe hp] at h
        injection h with h'
        exact cycle_ne_fuel _ h'
      · by_cases hm : name ∈ s.processed
        · rw [walk_template_processed tmpl bi fuel s path pipe hp hm] at h
          exact ih (by omega) h
        · cases hres : resolveRef tmpl name with
          | none =>
            rw [walk_template_missing tmpl bi fuel s path pipe hp hm hres] at h
            injection h with h'
            exact missing_ne_fuel _ h'
          | some body =>
            rw [walk_template_body tmpl bi fuel s path pipe hp hm hres] at h
            have hins := remWork_insert_lt hres hm
            cases h1 : walkNodes tmpl bi fuel body ⟨s.argsMap, name :: s.processed⟩
                (path ++ [name]) with
            | error e' =>
              rw [h1, ebind_error] at h
              cases h
              exact @ih body ⟨s.argsMap, name :: s.processed⟩ (path ++ [name]) (by simp; omega) h1
            | ok s1 =>
              rw [h1, ebind_ok] at h
              have hr1 : remWork tmpl s1.processed ≤
                  remWork tmpl (name :: s.processed) :=
                remWork_le_of_stateLE tmpl (walk_mono h1)
              have hr0 : remWork tmpl (name :: s.processed) ≤
                  remWork tmpl s.processed :=
                remWork_mono (fun n hn => List.mem_cons_of_mem _ hn)
              exact ih (by omega) h

/-! ### Finding the cycle behind a repeated path entry (shared by M7/M8) -/

theorem chain'_rtg_last {α : Type} {R : α → α → Prop} :
    ∀ {l : List α}, List.Chain' R l → ∀ {a : α}, a ∈ l →
      ∃ b, l.getLast? = some b ∧ Relation.ReflTransGen R a b := by
  intro l
  induction l with
  | nil => intro _ a ha; cases ha
  | cons x rest ih =>
    intro hch a ha
    cases rest with
    | nil =>
      have : a = x := by simpa using ha
      subst this
      exact ⟨a, rfl, Relation.ReflTransGen.refl⟩
    | cons y rest' =>
      have hxy : R x y := (List.chain'_cons.mp hch).1
      have hch' : List.Chain' R (y :: rest') := (List.chain'_cons.mp hch).2
      rcases List.mem_cons.mp ha with rfl | hmem
      · obtain ⟨b, hb, hrtg⟩ := ih hch' (List.mem_cons_self y rest')
        exact ⟨b, by rwa [List.getLast?_cons_cons],
          Relation.ReflTransGen.head hxy hrtg⟩
      · obtain ⟨b, hb, hrtg⟩ := ih hch' hmem
        exact ⟨b, by rwa [List.getLast?_cons_cons], hrtg⟩

theorem cycle_found {tmpl : Tmpl} {path : List String} {name : String}
    (hch : List.Chain' (RefStep tmpl) path) (hmem : name ∈ path)
    (hlast : ∀ p, path.getLast? = some p → RefStep tmpl p name) :
    Relation.TransGen (RefStep tmpl) name name := by
  obtain ⟨b, hb, hrtg⟩ := chain'_rtg_last hch hmem
  exact Relation.TransGen.tail' hrtg (hlast b hb)

theorem chain'_snoc {tmpl : Tmpl} {path : List String} {name : String}
    (hch : List.Chain' (RefStep tmpl) path)
    (hlast : ∀ p, path.getLast? = some p → RefStep tmpl p name) :
    List.Chain' (RefStep tmpl) (path ++ [name]) := by
  rw [List.chain'_append]
  refine ⟨hch, List.chain'_singleton _, ?_⟩
  intro x hx y hy
  have : y = name := (by simpa using hy : name = y).symm
  subst this
  exact hlast x hx

/-! ### M7: on closed acyclic graphs the walk succeeds -/

theorem walk_success {tmpl : Tmpl} {bi : List String} {root : Node}
    (hclosed : ∀ n, ReachesFrom tmpl root n → (resolveRef tmpl n).isSome)
    (hacyc : ¬ CycleReachable tmpl root) :
    ∀ {fuel : Nat} {node : Node} {s : WalkState} {path : List String},
      node.size + remWork tmpl s.processed < fuel →
      List.Chain' (RefStep tmpl) path →
      (∀ p, path.getLast? = some p → ∃ b, resolveRef tmpl p = some b ∧
        ∀ m ∈ node.refs, m ∈ b.refs) →
      (∀ m ∈ node.refs, ReachesFrom tmpl root m) →
      (∀ p ∈ path, ReachesFrom tmpl root p) →
      ∃ r, walkNodes tmpl bi fuel node s path = .ok r := by
  intro fuel
  induction fuel with
  | zero => intro node s path hb; exact absurd hb (by omega)
  | succ fuel ih =>
    intro node s path hb hch hlink hreach hpath
    cases node with
    | nilNode => exact ⟨s, walk_nilNode tmpl bi fuel s path⟩
    | text t => exact ⟨s, walk_text tmpl bi fuel s path t⟩
    | dot => exact ⟨s, walk_dot tmpl bi fuel s path⟩
    | identifier t => exact ⟨s, walk_identifier tmpl bi fuel s path t⟩
    | stringConst t => exact ⟨s, walk_stringConst tmpl bi fuel s path t⟩
    | action p =>
      simp only [Node.size] at hb
      obtain ⟨r, hr⟩ := @ih p s path (by omega) hch
        (by simpa [Node.refs] using hlink) (by simpa [Node.refs] using hreach) hpath
      exact ⟨r, by rw [walk_action]; exact hr⟩
    | ifNode p l e =>
      simp only [Node.size] at hb
      have hsubp : ∀ m ∈ p.refs, m ∈ Node.refs (.ifNode p l e) := by
        intro m hm; simp [Node.refs]; tauto
      have hsubl : ∀ m ∈ l.refs, m ∈ Node.refs (.ifNode p l e) := by
        intro m hm; simp [Node.refs]; tauto
      have hsube : ∀ m ∈ e.refs, m ∈ Node.refs (.ifNode p l e) := by
        intro m hm; simp [Node.refs]; tauto
      obtain ⟨s1, h1⟩ := @ih p s path (by omega) hch
        (fun q hq => (hlink q hq).imp fun b hb' => ⟨hb'.1, fun m hm => hb'.2 m (hsubp m hm)⟩)
        (fun m hm => hreach m (hsubp m hm)) hpath
      have hr1 := remWork_le_of_stateLE tmpl (walk_mono h1)
      obtain ⟨s2, h2⟩ := @ih l s1 path (by omega) hch
        (fun q hq => (hlink q hq).imp fun b hb' => ⟨hb'.1, fun m hm => hb'.2 m (hsubl m hm)⟩)
        (fun m hm => hreach m (hsubl m hm)) hpath
      have hr2 := remWork_le_of_stateLE tmpl (walk_mono h2)
      obtain ⟨s3, h3⟩ := @ih e s2 path (by omega) hch
        (fun q hq => (hlink q hq).imp fun b hb' => ⟨hb'.1, fun m hm => hb'.2 m (hsube m hm)⟩)
        (fun m hm => hreach m (hsube m hm)) hpath
      exact ⟨s3, by rw [walk_ifNode, h1, ebind_ok, h2, ebind_ok]; exact h3⟩
    | rangeNode p l e =>
      simp only [Node.size] at hb
      have hsubp : ∀ m ∈ p.refs, m ∈ Node.refs (.rangeNode p l e) := by
        intro m hm; simp [Node.refs]; tauto
      have hsubl : ∀ m ∈ l.refs, m ∈ Node.refs (.rangeNode p l e) := by
        intro m hm; simp [Node.refs]; tauto
      have hsube : ∀ m ∈ e.refs, m ∈ Node.refs (.rangeNode p l e) := by
        intro m hm; simp [Node.refs]; tauto
      obtain ⟨s1, h1⟩ := @ih p s path (by omega) hch
        (fun q hq => (hlink q hq).imp fun b hb' => ⟨hb'.1, fun m hm => hb'.2 m (hsubp m hm)⟩)
        (fun m hm => hreach m (hsubp m hm)) hpath
      have hr1 := remWork_le_of_stateLE tmpl (walk_mono h1)
      obtain ⟨s2, h2⟩ := @ih l s1 path (by omega) hch
        (fun q hq => (hlink q hq).imp fun b hb' => ⟨hb'.1, fun m hm => hb'.2 m (hsubl m hm)⟩)
        (fun m hm => hreach m (hsubl m hm)) hpath
      have hr2 := remWork_le_of_stateLE tmpl (walk_mono h2)
      obtain ⟨s3, h3⟩ := @ih e s2 path (by omega) hch
        (fun q hq => (hlink q hq).imp fun b hb' => ⟨hb'.1, fun m hm => hb'.2 m (hsube m hm)⟩)
        (fun m hm => hreach m (hsube m hm)) hpath
      exact ⟨s3, by rw [walk_rangeNode, h1, ebind_ok, h2, ebind_ok]; exact h3⟩
    | withNode p l e =>
      simp only [Node.size] at hb
      have hsubp : ∀ m ∈ p.refs, m ∈ Node.refs (.withNode p l e) := by
        intro m hm; simp [Node.refs]; tauto
      have hsubl : ∀ m ∈ l.refs, m ∈ Node.refs (.withNode p l e) := by
        intro m hm; simp [Node.refs]; tauto
      have hsube : ∀ m ∈ e.refs, m ∈ Node.refs (.withNode p l e) := by
        intro m hm; simp [Node.refs]; tauto
      obtain ⟨s1, h1⟩ := @ih p s path (by omega) hch
        (fun q hq => (hlink q hq).imp fun b hb' => ⟨hb'.1, fun m hm => hb'.2 m (hsubp m hm)⟩)
        (fun m hm => hreach m (hsubp m hm)) hpath
      have hr1 := remWork_le_of_stateLE tmpl (walk_mono h1)
      obtain ⟨s2, h2⟩ := @ih l s1 path (by omega) hch
        (fun q hq => (hlink q hq).imp fun b hb' => ⟨hb'.1, fun m hm => hb'.2 m (hsubl m hm)⟩)
        (fun m hm => hreach m (hsubl m hm)) hpath
      have hr2 := remWork_le_of_stateLE tmpl (walk_mono h2)
      obtain ⟨s3, h3⟩ := @ih e s2 path (by omega) hch
        (fun q hq => (hlink q hq).imp fun b hb' => ⟨hb'.1, fun m hm => hb'.2 m (hsube m hm)⟩)
        (fun m hm => hreach m (hsube m hm)) hpath
      exact ⟨s3, by rw [walk_withNode, h1, ebind_ok, h2, ebind_ok]; exact h3⟩
    | listNode ns =>
      simp only [Node.size] at hb
      rw [walk_listNode]
      refine foldlM_ok_all StateLE stateLE_refl (fun h1 h2 => stateLE_trans h1 h2) _ ns
        (fun c hc b b' hf => walk_mono hf) s ?_
      intro c hc b' hR
      have hsz := sizeList_le hc
      have hrw := remWork_le_of_stateLE tmpl hR
      have hsub : ∀ m ∈ c.refs, m ∈ Node.refs (.listNode ns) := by
        intro m hm
        simp only [Node.refs]
        exact refsList_sub hc m hm
      exact @ih c b' path (by omega) hch
        (fun q hq => (hlink q hq).imp fun b hb' => ⟨hb'.1, fun m hm => hb'.2 m (hsub m hm)⟩)
        (fun m hm => hreach m (hsub m hm)) hpath
    | pipeNode ns =>
      simp only [Node.size] at hb
      rw [walk_pipeNode]
      refine foldlM_ok_all StateLE stateLE_refl (fun h1 h2 => stateLE_trans h1 h2) _ ns
        (fun c hc b b' hf => walk_mono hf) s ?_
      intro c hc b' hR
      have hsz := sizeList_le hc
      have hrw := remWork_le_of_stateLE tmpl hR
      have hsub : ∀ m ∈ c.refs, m ∈ Node.refs (.pipeNode ns) := by
        intro m hm
        simp only [Node.refs]
        exact refsList_sub hc m hm
      exact @ih c b' path (by omega) hch
        (fun q hq => (hlink q hq).imp fun b hb' => ⟨hb'.1, fun m hm => hb'.2 m (hsub m hm)⟩)
        (fun m hm => hreach m (hsub m hm)) hpath
    | command ns =>
      simp only [Node.size] at hb
      rw [walk_command]
      refine foldlM_ok_all StateLE stateLE_refl (fun h1 h2 => stateLE_trans h1 h2) _ ns
        (fun c hc b b' hf => walk_mono hf) s ?_
      intro c hc b' hR
      have hsz := sizeList_le hc
      have hrw := remWork_le_of_stateLE tmpl hR
      have hsub : ∀ m ∈ c.refs, m ∈ Node.refs (.command ns) := by
        intro m hm
        simp only [Node.refs]
        exact refsList_sub hc m hm
      exact @ih c b' path (by omega) hch
        (fun q hq => (hlink q hq).imp fun b hb' => ⟨hb'.1, fun m hm => hb'.2 m (hsub m hm)⟩)
        (fun m hm => hreach m (hsub m hm)) hpath
    | field is =>
      cases is with
      | nil => exact ⟨s, walk_field_nil tmpl bi fuel s path⟩
      | cons i rest =>
        rw [walk_field_cons]
        split
        · exact ⟨s, rfl⟩
        · exact ⟨_, rfl⟩
    | variableNode is =>
      cases is with
      | nil => exact ⟨s, walk_variable_nil tmpl bi fuel s path⟩
      | cons i rest =>
        rw [walk_variable_cons]
        split
        · exact ⟨s, rfl⟩
        · split
          · exact ⟨s, rfl⟩
          · exact ⟨_, rfl⟩
    | templateNode name pipe =>
      simp only [Node.size] at hb
      have hnamemem : name ∈ Node.refs (.templateNode name pipe) := by
        simp [Node.refs]
      have hsubpipe : ∀ m ∈ pipe.refs, m ∈ Node.refs (.templateNode name pipe) := by
        intro m hm; simp [Node.refs]; tauto
      by_cases hp : name ∈ path
      · -- a repeated path entry would exhibit a reachable cycle
        exfalso
        have hlast : ∀ q, path.getLast? = some q → RefStep tmpl q name := by
          intro q hq
          obtain ⟨b, hb', hsub⟩ := hlink q hq
          exact ⟨b, hb', hsub name hnamemem⟩
        exact hacyc ⟨name, hpath name hp, cycle_found hch hp hlast⟩
      · by_cases hm : name ∈ s.processed
        · obtain ⟨r, hr⟩ := @ih pipe s path (by omega) hch
            (fun q hq => (hlink q hq).imp fun b hb' =>
              ⟨hb'.1, fun m hm' => hb'.2 m (hsubpipe m hm')⟩)
            (fun m hm' => hreach m (hsubpipe m hm')) hpath
          exact ⟨r, by rw [walk_template_processed tmpl bi fuel s path pipe hp hm]; exact hr⟩
        · have hreachname : ReachesFrom tmpl root name := hreach name hnamemem
          obtain ⟨body, hres⟩ := Option.isSome_iff_exists.mp (hclosed name hreachname)
          have hins := remWork_insert_lt hres hm
          have hlastlink : ∀ q, path.getLast? = some q → RefStep tmpl q name := by
            intro q hq
            obtain ⟨b, hb', hsub⟩ := hlink q hq
            exact ⟨b, hb', hsub name hnamemem⟩
          obtain ⟨s1, h1⟩ := @ih body ⟨s.argsMap, name :: s.processed⟩ (path ++ [name])
            (by simp only; omega)
            (chain'_snoc hch hlastlink)
            (by
              intro q hq
              rw [List.getLast?_concat] at hq
              cases hq
              exact ⟨body, hres, fun m hm' => hm'⟩)
            (fun m hm' => .step hreachname ⟨body, hres, hm'⟩)
            (by
              intro q hq
              rcases List.mem_append.mp hq with hq | hq
              · exact hpath q hq
              · have : q = name := by simpa using hq
                subst this
                exact hreachname)
          have hr1 : remWork tmpl s1.processed ≤ remWork tmpl (name :: s.processed) :=
            remWork_le_of_stateLE tmpl (walk_mono h1)
          obtain ⟨r, hr⟩ := @ih pipe s1 path (by omega) hch
            (fun q hq => (hlink q hq).imp fun b hb' =>
              ⟨hb'.1, fun m hm' => hb'.2 m (hsubpipe m hm')⟩)
            (fun m hm' => hreach m (hsubpipe m hm')) hpath
          exact ⟨r, by
            rw [walk_template_body tmpl bi fuel s path pipe hp hm hres, h1, ebind_ok]
            exact hr⟩

/-! ### M8: every walk error is fuel exhaustion, a structured cycle report
over an actual reachable cycle, or a missing reachable reference -/

/-- The disjunction of possible walk errors. -/
def ErrClass (tmpl : Tmpl) (root : Node) (e : String) : Prop :=
  e = fuelErrMsg ∨
  (∃ p' nm, e = cycleErrMsg (p' ++ [nm]) ∧ nm ∈ p' ∧
    List.Chain' (RefStep tmpl) (p' ++ [nm]) ∧
    ∃ n, ReachesFrom tmpl root n ∧ Relation.TransGen (RefStep tmpl) n n) ∨
  (∃ nm, e = missingErrMsg nm ∧ ReachesFrom tmpl root nm ∧
    resolveRef tmpl nm = none)

theorem walk_error_analysis {tmpl : Tmpl} {bi : List String} (root : Node) :
    ∀ {fuel : Nat} {node : Node} {s : WalkState} {path : List String}
      {e : String},
      walkNodes tmpl bi fuel node s path = .error e →
      List.Chain' (RefStep tmpl) path →
      (∀ p, path.getLast? = some p → ∃ b, resolveRef tmpl p = some b ∧
        ∀ m ∈ node.refs, m ∈ b.refs) →
      (∀ m ∈ node.refs, ReachesFrom tmpl root m) →
      (∀ p ∈ path, ReachesFrom tmpl root p) →
      ErrClass tmpl root e := by
  intro fuel
  induction fuel with
  | zero =>
    intro node s path e h _ _ _ _
    rw [walk_zero] at h
    injection h with h'
    exact Or.inl h'.symm
  | succ fuel ih =>
    intro node s path e h hch hlink hreach hpath
    cases node with
    | nilNode => rw [walk_nilNode] at h; cases h
    | text t => rw [walk_text] at h; cases h
    | dot => rw [walk_dot] at h; cases h
    | identifier t => rw [walk_identifier] at h; cases h
    | stringConst t => rw [walk_stringConst] at h; cases h
    | action p =>
      rw [walk_action] at h
      exact ih h hch (by simpa [Node.refs] using hlink)
        (by simpa [Node.refs] using hreach) hpath
    | ifNode p l e' =>
      rw [walk_ifNode] at h
      have hsubp : ∀ m ∈ p.refs, m ∈ Node.refs (.ifNode p l e') := by
        intro m hm; simp [Node.refs]; tauto
      have hsubl : ∀ m ∈ l.refs, m ∈ Node.refs (.ifNode p l e') := by
        intro m hm; simp [Node.refs]; tauto
      have hsube : ∀ m ∈ e'.refs, m ∈ Node.refs (.ifNode p l e') := by
        intro m hm; simp [Node.refs]; tauto
      cases h1 : walkNodes tmpl bi fuel p s path with
      | error e2 =>
        rw [h1, ebind_error] at h
        cases h
        exact ih h1 hch
          (fun q hq => (hlink q hq).imp fun b hb' => ⟨hb'.1, fun m hm => hb'.2 m (hsubp m hm)⟩)
          (fun m hm => hreach m (hsubp m hm)) hpath
      | ok s1 =>
        rw [h1, ebind_ok] at h
        cases h2 : walkNodes tmpl bi fuel l s1 path with
        | error e2 =>
          rw [h2, ebind_error] at h
          cases h
          exact ih h2 hch
            (fun q hq => (hlink q hq).imp fun b hb' => ⟨hb'.1, fun m hm => hb'.2 m (hsubl m hm)⟩)
            (fun m hm => hreach m (hsubl m hm)) hpath
        | ok s2 =>
          rw [h2, ebind_ok] at h
          exact ih h hch
            (fun q hq => (hlink q hq).imp fun b hb' => ⟨hb'.1, fun m hm => hb'.2 m (hsube m hm)⟩)
            (fun m hm => hreach m (hsube m hm)) hpath
    | rangeNode p l e' =>
      rw [walk_rangeNode] at h
      have hsubp : ∀ m ∈ p.refs, m ∈ Node.refs (.rangeNode p l e') := by
        intro m hm; simp [Node.refs]; tauto
      have hsubl : ∀ m ∈ l.refs, m ∈ Node.refs (.rangeNode p l e') := by
        intro m hm; simp [Node.refs]; tauto
      have hsube : ∀ m ∈ e'.refs, m ∈ Node.refs (.rangeNode p l e') := by
        intro m hm; simp [Node.refs]; tauto
      cases h1 : walkNodes tmpl bi fuel p s path with
      | error e2 =>
        rw [h1, ebind_error] at h
        cases h
        exact ih h1 hch
          (fun q hq => (hlink q hq).imp fun b hb' => ⟨hb'.1, fun m hm => hb'.2 m (hsubp m hm)⟩)
          (fun m hm => hreach m (hsubp m hm)) hpath
      | ok s1 =>
        rw [h1, ebind_ok] at h
        cases h2 : walkNodes tmpl bi fuel l s1 path with
        | error e2 =>
          rw [h2, ebind_error] at h
          cases h
          exact ih h2 hch
            (fun q hq => (hlink q hq).imp fun b hb' => ⟨hb'.1, fun m hm => hb'.2 m (hsubl m hm)⟩)
            (fun m hm => hreach m (hsubl m hm)) hpath
        | ok s2 =>
          rw [h2, ebind_ok] at h
          exact ih h hch
            (fun q hq => (hlink q hq).imp fun b hb' => ⟨hb'.1, fun m hm => hb'.2 m (hsube m hm)⟩)
            (fun m hm => hreach m (hsube m hm)) hpath
    | withNode p l e' =>
      rw [walk_withNode] at h
      have hsubp : ∀ m ∈ p.refs, m ∈ Node.refs (.withNode p l e') := by
        intro m hm; simp [Node.refs]; tauto
      have hsubl : ∀ m ∈ l.refs, m ∈ Node.refs (.withNode p l e') := by
        intro m hm; simp [Node.refs]; tauto
      have hsube : ∀ m ∈ e'.refs, m ∈ Node.refs (.withNode p l e') := by
        intro m hm; simp [Node.refs]; tauto
      cases h1 : walkNodes tmpl bi fuel p s path with
      | error e2 =>
        rw [h1, ebind_error] at h
        cases h
        exact ih h1 hch
          (fun q hq => (hlink q hq).imp fun b hb' => ⟨hb'.1, fun m hm => hb'.2 m (hsubp m hm)⟩)
          (fun m hm => hreach m (hsubp m hm)) hpath
      | ok s1 =>
        rw [h1, ebind_ok] at h
        cases h2 : walkNodes tmpl bi fuel l s1 path with
        | error e2 =>
          rw [h2, ebind_error] at h
          cases h
          exact ih h2 hch
            (fun q hq => (hlink q hq).imp fun b hb' => ⟨hb'.1, fun m hm => hb'.2 m (hsubl m hm)⟩)
            (fun m hm => hreach m (hsubl m hm)) hpath
        | ok s2 =>
          rw [h2, ebind_ok] at h
          exact ih h hch
            (fun q hq => (hlink q hq).imp fun b hb' => ⟨hb'.1, fun m hm => hb'.2 m (hsube m hm)⟩)
            (fun m hm => hreach m (hsube m hm)) hpath
    | listNode ns =>
      rw [walk_listNode] at h
      obtain ⟨c, hc, b', hR, hf⟩ := foldlM_error_chain StateLE stateLE_refl
        (fun h1 h2 => stateLE_trans h1 h2) _ ns (fun a _ b b' hf => walk_mono hf) s _ h
      have hsub : ∀ m ∈ c.refs, m ∈ Node.refs (.listNode ns) := by
        intro m hm
        simp only [Node.refs]
        exact refsList_sub hc m hm
      exact ih hf hch
        (fun q hq => (hlink q hq).imp fun b hb' => ⟨hb'.1, fun m hm => hb'.2 m (hsub m hm)⟩)
        (fun m hm => hreach m (hsub m hm)) hpath
    | pipeNode ns =>
      rw [walk_pipeNode] at h
      obtain ⟨c, hc, b', hR, hf⟩ := foldlM_error_chain StateLE stateLE_refl
        (fun h1 h2 => stateLE_trans h1 h2) _ ns (fun a _ b b' hf => walk_mono hf) s _ h
      have hsub : ∀ m ∈ c.refs, m ∈ Node.refs (.pipeNode ns) := by
        intro m hm
        simp only [Node.refs]
        exact refsList_sub hc m hm
      exact ih hf hch
        (fun q hq => (hlink q hq).imp fun b hb' => ⟨hb'.1, fun m hm => hb'.2 m (hsub m hm)⟩)
        (fun m hm => hreach m (hsub m hm)) hpath
    | command ns =>
      rw [walk_command] at h
      obtain ⟨c, hc, b', hR, hf⟩ := foldlM_error_chain StateLE stateLE_refl
        (fun h1 h2 => stateLE_trans h1 h2) _ ns (fun a _ b b' hf => walk_mono hf) s _ h
      have hsub : ∀ m ∈ c.refs, m ∈ Node.refs (.command ns) := by
        intro m hm
        simp only [Node.refs]
        exact refsList_sub hc m hm
      exact ih hf hch
        (fun q hq => (hlink q hq).imp fun b hb' => ⟨hb'.1, fun m hm => hb'.2 m (hsub m hm)⟩)
        (fun m hm => hreach m (hsub m hm)) hpath
    | field is =>
      cases is with
      | nil => rw [walk_field_nil] at h; cases h
      | cons i rest =>
        rw [walk_field_cons] at h
        split at h
        · cases h
        · cases h
    | variableNode is =>
      cases is with
      | nil => rw [walk_variable_nil] at h; cases h
      | cons i rest =>
        rw [walk_variable_cons] at h
        split at h
        · cases h
        · split at h
          · cases h
          · cases h
    | templateNode name pipe =>
      have hnamemem : name ∈ Node.refs (.templateNode name pipe) := by
        simp [Node.refs]
      have hsubpipe : ∀ m ∈ pipe.refs, m ∈ Node.refs (.templateNode name pipe) := by
        intro m hm; simp [Node.refs]; tauto
      by_cases hp : name ∈ path
      · rw [walk_template_inPath tmpl bi fuel s path pipe hp] at h
        injection h with h'
        have hlast : ∀ q, path.getLast? = some q → RefStep tmpl q name := by
          intro q hq
          obtain ⟨b, hb', hsub⟩ := hlink q hq
          exact ⟨b, hb', hsub name hnamemem⟩
        refine Or.inr (Or.inl ⟨path, name, h'.symm, hp, chain'_snoc hch hlast, name,
          hpath name hp, cycle_found hch hp hlast⟩)
      · by_cases hm : name ∈ s.processed
        · rw [walk_template_processed tmpl bi fuel s path pipe hp hm] at h
          exact ih h hch
            (fun q hq => (hlink q hq).imp fun b hb' =>
              ⟨hb'.1, fun m hm' => hb'.2 m (hsubpipe m hm')⟩)
            (fun m hm' => hreach m (hsubpipe m hm')) hpath
        · cases hres : resolveRef tmpl name with
          | none =>
            rw [walk_template_missing tmpl bi fuel s path pipe hp hm hres] at h
            injection h with h'
            exact Or.inr (Or.inr ⟨name, h'.symm, hreach name hnamemem, hres⟩)
          | some body =>
            rw [walk_template_body tmpl bi fuel s path pipe hp hm hres] at h
            have hreachname : ReachesFrom tmpl root name := hreach name hnamemem
            have hlastlink : ∀ q, path.getLast? = some q → RefStep tmpl q name := by
              intro q hq
              obtain ⟨b, hb', hsub⟩ := hlink q hq
              exact ⟨b, hb', hsub name hnamemem⟩
            cases h1 : walkNodes tmpl bi fuel body ⟨s.argsMap, name :: s.processed⟩
                (path ++ [name]) with
            | error e2 =>
              rw [h1, ebind_error] at h
              cases h
              refine ih h1 (chain'_snoc hch hlastlink) ?_
                (fun m hm' => .step hreachname ⟨body, hres, hm'⟩) ?_
              · intro q hq
                rw [List.getLast?_concat] at hq
                cases hq
                exact ⟨body, hres, fun m hm' => hm'⟩
              · intro q hq
                rcases List.mem_append.mp hq with hq | hq
                · exact hpath q hq
                · have : q = name := by simpa using hq
                  subst this
                  exact hreachname
            | ok s1 =>
              rw [h1, ebind_ok] at h
              exact ih h hch
                (fun q hq => (hlink q hq).imp fun b hb' =>
                  ⟨hb'.1, fun m hm' => hb'.2 m (hsubpipe m hm')⟩)
                (fun m hm' => hreach m (hsubpipe m hm')) hpath

/-! ### Assembly: extraction-level consequences -/

theorem extract_eq_run {tmpl : Tmpl} {nm : String} {root : Node}
    (hroot : lookupTarget tmpl nm = some root) :
    extractPromptArgumentsFromTemplate tmpl nm =
      (walkNodes tmpl builtInFields (extractFuel tmpl root) root ⟨[], []⟩ []).map
        (fun s => s.argsMap) := by
  unfold lookupTarget at hroot
  unfold extractPromptArgumentsFromTemplate
  cases hl : alookup tmpl nm with
  | some t =>
    rw [hl] at hroot
    replace hroot : some t = some root := hroot
    cases hroot
    simp only [hl]
  | none =>
    rw [hl] at hroot
    replace hroot : (if hasTmplExt nm = true then none
        else alookup tmpl (nm ++ templateExt)) = some root := hroot
    by_cases hext : hasTmplExt nm = true
    · rw [if_pos hext] at hroot
      cases hroot
    · rw [if_neg hext] at hroot
      simp only [hl, hext, Bool.false_eq_true, if_false, hroot]

theorem extract_fuel_ok {tmpl : Tmpl} (root : Node) :
    root.size + remWork tmpl (WalkState.processed ⟨[], []⟩) < extractFuel tmpl root := by
  show root.size + remWork tmpl [] < extractFuel tmpl root
  unfold extractFuel
  omega

/-- The trivial invariant and certificate of the empty starting state. -/
theorem walkInv_empty (tmpl : Tmpl) (bi : List String) :
    WalkInv tmpl bi ⟨[], []⟩ [] := by
  intro n hn
  cases hn

theorem cert_empty (tmpl : Tmpl) :
    Cert tmpl (WalkState.processed ⟨[], []⟩) [] (fun _ => 0) := by
  intro n hn
  cases hn

/-- Everything reachable ends processed after a successful top-level walk. -/
theorem reach_sub_processed {tmpl : Tmpl} {bi : List String} {root : Node}
    {r : WalkState} (hrefs : ∀ m ∈ root.refs, m ∈ r.processed)
    (hinv : WalkInv tmpl bi r []) :
    ∀ n, ReachesFrom tmpl root n → n ∈ r.processed := by
  intro n hn
  induction hn with
  | base hb => exact hrefs _ hb
  | step hm hs ih =>
    obtain ⟨b, hres, hbref⟩ := hs
    exact (hinv _ ih (by simp) b hres).2 _ hbref

/-- A certificate over a closed processed set forbids cycles through it. -/
theorem cert_no_cycle {tmpl : Tmpl} {proc : List String} {rank : String → Nat}
    (hc : Cert tmpl proc [] rank) :
    ∀ a b, Relation.TransGen (RefStep tmpl) a b → a ∈ proc →
      b ∈ proc ∧ rank b < rank a := by
  intro a b htg
  induction htg with
  | single hs =>
    intro ha
    obtain ⟨bb, hres, hbref⟩ := hs
    obtain ⟨h1, _, h3⟩ := hc a ha (by simp) bb hres _ hbref
    exact ⟨h1, h3⟩
  | tail htg' hs ih =>
    intro ha
    obtain ⟨hb, hrank⟩ := ih ha
    obtain ⟨bb, hres, hbref⟩ := hs
    obtain ⟨h1, _, h3⟩ := hc _ hb (by simp) bb hres _ hbref
    exact ⟨h1, lt_trans h3 hrank⟩

/-- A successful top-level walk implies the reachable reference graph is
acyclic (the DFS with a path-sensitive check found no cycle because there is
none). -/
theorem success_acyclic {tmpl : Tmpl} {bi : List String} {root : Node}
    {fuel : Nat} {r : WalkState}
    (h : walkNodes tmpl bi fuel root ⟨[], []⟩ [] = .ok r) :
    ¬ CycleReachable tmpl root := by
  rintro ⟨n, hreach, htg⟩
  obtain ⟨hinv, hvars, hrefs, hoff, hcert⟩ :=
    walk_complete h (walkInv_empty tmpl bi)
  obtain ⟨rank, hrank⟩ := hcert _ (cert_empty tmpl)
  have hproc : n ∈ r.processed :=
    reach_sub_processed hrefs hinv n hreach
  obtain ⟨_, hlt⟩ := cert_no_cycle hrank n n htg hproc
  omega

/-- On success the collected arguments are exactly the variables of the root
and of every reachable resolved body, duplicate-free, lowered, and without
the built-in date. -/
theorem extract_characterization {tmpl : Tmpl} {nm : String} {root : Node}
    {args : List String} (hroot : lookupTarget tmpl nm = some root)
    (h : extractPromptArgumentsFromTemplate tmpl nm = .ok args) :
    args.Nodup ∧ (∀ x ∈ args, lowerStr x = x) ∧ "date" ∉ args ∧
    (∀ x, x ∈ args ↔ (x ∈ root.varsB builtInFields ∨
      ∃ n, ReachesFrom tmpl root n ∧ x ∈ varsRes builtInFields tmpl n)) := by
  rw [extract_eq_run hroot] at h
  cases hw : walkNodes tmpl builtInFields (extractFuel tmpl root) root ⟨[], []⟩ [] with
  | error e => rw [hw] at h; cases h
  | ok r =>
    rw [hw] at h
    replace h : Except.ok r.argsMap = Except.ok args := h
    cases h
    obtain ⟨hle, hnd, hshape, hprov, hpproc, hres⟩ := walk_out hw
    obtain ⟨hinv, hvars, hrefs, hoff, hcert⟩ :=
      walk_complete hw (walkInv_empty tmpl builtInFields)
    refine ⟨hnd (by simp), ?_, ?_, ?_⟩
    · intro x hx
      rcases hshape x hx with hx' | ⟨⟨i, hi⟩, hbi⟩
      · cases hx'
      · rw [hi]
        exact lowerStr_idem i
    · intro hx
      rcases hshape _ hx with hx' | ⟨_, hbi⟩
      · cases hx'
      · exact hbi (by simp [builtInFields])
    · intro x
      constructor
      · intro hx
        rcases hprov x hx with hx' | hx' | ⟨n, hn, hv⟩
        · cases hx'
        · exact Or.inl hx'
        · rcases hpproc n hn with hn' | hn'
          · cases hn'
          · exact Or.inr ⟨n, hn', hv⟩
      · rintro (hx | ⟨n, hn, hv⟩)
        · exact hvars x hx
        · have hproc : n ∈ r.processed := reach_sub_processed hrefs hinv n hn
          unfold varsRes at hv
          cases hres2 : resolveRef tmpl n with
          | none => rw [hres2] at hv; cases hv
          | some b =>
            rw [hres2] at hv
            exact (hinv n hproc (by simp) b hres2).1 x hv

/-- With every reachable reference resolvable, extraction fails exactly on
reachable cycles, and any failure is a structured cycle report. -/
theorem extract_cycle_iff {tmpl : Tmpl} {nm : String} {root : Node}
    (hroot : lookupTarget tmpl nm = some root)
    (hclosed : ∀ n, ReachesFrom tmpl root n → (resolveRef tmpl n).isSome) :
    ((∃ e, extractPromptArgumentsFromTemplate tmpl nm = .error e) ↔
      CycleReachable tmpl root) ∧
    (∀ e, extractPromptArgumentsFromTemplate tmpl nm = .error e →
      ∃ p' nm', e = cycleErrMsg (p' ++ [nm']) ∧ nm' ∈ p' ∧
        List.Chain' (RefStep tmpl) (p' ++ [nm'])) := by
  have hrun := extract_eq_run hroot
  have hstart : ∀ {e : String},
      walkNodes tmpl builtInFields (extractFuel tmpl root) root ⟨[], []⟩ [] =
        .error e → ErrClass tmpl root e := by
    intro e hw
    exact walk_error_analysis root hw List.chain'_nil
      (by intro p hp; cases hp) (fun m hm => .base hm) (by intro p hp; cases hp)
  have herr : ∀ e, extractPromptArgumentsFromTemplate tmpl nm = .error e →
      (∃ p' nm', e = cycleErrMsg (p' ++ [nm']) ∧ nm' ∈ p' ∧
        List.Chain' (RefStep tmpl) (p' ++ [nm'])) ∧ CycleReachable tmpl root := by
    intro e he
    rw [hrun] at he
    cases hw : walkNodes tmpl builtInFields (extractFuel tmpl root) root ⟨[], []⟩ [] with
    | ok r => rw [hw] at he; cases he
    | error e2 =>
      rw [hw] at he
      replace he : (Except.error e2 : Except String (List String)) = .error e := he
      cases he
      rcases hstart hw with hfuel | ⟨p', nm', hmsg, hmem, hchain, n, hreach, htg⟩ |
        ⟨nm', hmsg, hreach, hres⟩
      · exact absurd hw (by rw [hfuel]; exact walk_nofuel (extract_fuel_ok root))
      · exact ⟨⟨p', nm', hmsg, hmem, hchain⟩, n, hreach, htg⟩
      · have := hclosed nm' hreach
        rw [hres] at this
        cases this
  constructor
  · constructor
    · rintro ⟨e, he⟩
      exact (herr e he).2
    · intro hcyc
      cases hex : extractPromptArgumentsFromTemplate tmpl nm with
      | error e => exact ⟨e, rfl⟩
      | ok args =>
        exfalso
        rw [hrun] at hex
        cases hw : walkNodes tmpl builtInFields (extractFuel tmpl root) root
            ⟨[], []⟩ [] with
        | error e => rw [hw] at hex; cases hex
        | ok r => exact success_acyclic hw hcyc
  · intro e he
    exact (herr e he).1

/-- On closed acyclic graphs extraction succeeds. -/
theorem extract_acyclic_ok {tmpl : Tmpl} {nm : String} {root : Node}
    (hroot : lookupTarget tmpl nm = some root)
    (hclosed : ∀ n, ReachesFrom tmpl root n → (resolveRef tmpl n).isSome)
    (hacyc : ¬ CycleReachable tmpl root) :
    ∃ args, extractPromptArgumentsFromTemplate tmpl nm = .ok args := by
  obtain ⟨r, hr⟩ := walk_success hclosed hacyc (extract_fuel_ok root)
    List.chain'_nil (by intro p hp; cases hp) (fun m hm => .base hm)
    (by intro p hp; cases hp)
  exact ⟨r.argsMap, by rw [extract_eq_run hroot, hr]; rfl⟩

/-! ### Association-list, fold, trimming and graph lemmas for the claims -/

theorem alookup_cons_inv {α : Type} {k' : String} {v' : α} {rest : List (String × α)}
    {k : String} {v : α} (h : alookup ((k', v') :: rest) k = some v) :
    (k = k' ∧ v = v') ∨ alookup rest k = some v := by
  by_cases hk : k = k'
  · rw [show alookup ((k', v') :: rest) k =
      (if k = k' then some v' else alookup rest k) from rfl, if_pos hk] at h
    cases h
    exact Or.inl ⟨hk, rfl⟩
  · rw [show alookup ((k', v') :: rest) k =
      (if k = k' then some v' else alookup rest k) from rfl, if_neg hk] at h
    exact Or.inr h

theorem alookup_mem {α : Type} {l : List (String × α)} {k : String} {v : α}
    (h : alookup l k = some v) : (k, v) ∈ l := by
  induction l with
  | nil => simp [alookup] at h
  | cons kv rest ih =>
    obtain ⟨k', v'⟩ := kv
    rcases alookup_cons_inv h with ⟨h1, h2⟩ | h'
    · subst h1; subst h2; exact List.mem_cons_self _ _
    · exact List.mem_cons_of_mem _ (ih h')

theorem alookup_keys_ex {α : Type} {l : List (String × α)} {k : String}
    (h : k ∈ l.map Prod.fst) : ∃ v, alookup l k = some v := by
  induction l with
  | nil => simp at h
  | cons kv rest ih =>
    obtain ⟨k', v'⟩ := kv
    simp only [List.map_cons, List.mem_cons] at h
    by_cases hk : k = k'
    · exact ⟨v', by simp [alookup, hk]⟩
    · rcases h with h | h
      · exact absurd h hk
      · obtain ⟨v, hv⟩ := ih h
        exact ⟨v, by simp [alookup, hk, hv]⟩

theorem alookup_upsert_self {α : Type} (d : List (String × α)) (k : String) (v : α) :
    alookup (upsert d k v) k = some v := by
  induction d with
  | nil => simp [upsert, alookup]
  | cons kv rest ih =>
    obtain ⟨k', v'⟩ := kv
    by_cases hk : k = k'
    · simp [upsert, hk, alookup]
    · simp [upsert, hk, alookup, ih]

theorem alookup_upsert_other {α : Type} {k kOther : String} (hne : k ≠ kOther)
    (d : List (String × α)) (v : α) :
    alookup (upsert d kOther v) k = alookup d k := by
  induction d with
  | nil => simp [upsert, alookup, hne]
  | cons kv rest ih =>
    obtain ⟨k', v'⟩ := kv
    by_cases hk : kOther = k'
    · subst hk
      simp [upsert, alookup, hne]
    · simp [upsert, hk, alookup, ih]

theorem alookup_foldl_upsert_notmem (g : String → String → JValue)
    {pairs : List (String × String)} {k : String}
    (hk : k ∉ pairs.map Prod.fst) (data : List (String × JValue)) :
    alookup (pairs.foldl (fun d kv => upsert d kv.1 (g kv.1 kv.2)) data) k =
      alookup data k := by
  induction pairs generalizing data with
  | nil => rfl
  | cons kv rest ih =>
    obtain ⟨k₀, v₀⟩ := kv
    simp only [List.map_cons, List.mem_cons, not_or] at hk
    rw [List.foldl_cons, ih hk.2]
    exact alookup_upsert_other hk.1 data _

theorem alookup_foldl_upsert_mem (g : String → String → JValue)
    {pairs : List (String × String)} {k v : String}
    (hmem : (k, v) ∈ pairs) (hnd : (pairs.map Prod.fst).Nodup)
    (data : List (String × JValue)) :
    alookup (pairs.foldl (fun d kv => upsert d kv.1 (g kv.1 kv.2)) data) k =
      some (g k v) := by
  induction pairs generalizing data with
  | nil => cases hmem
  | cons kv rest ih =>
    obtain ⟨k₀, v₀⟩ := kv
    rw [List.map_cons, List.nodup_cons] at hnd
    rw [List.foldl_cons]
    rcases List.mem_cons.mp hmem with heq | hmem'
    · injection heq with h1 h2
      subst h1; subst h2
      rw [alookup_foldl_upsert_notmem g hnd.1 _]
      exact alookup_upsert_self _ _ _
    · exact ih hmem' hnd.2 _

/-- `parseMCPArgs` is the fold of per-argument upserts of `decodeArgValue`. -/
theorem parseMCPArgs_eq_fold (args : List (String × String)) (en : Bool)
    (data : List (String × JValue)) :
    parseMCPArgs args en data =
      args.foldl (fun d kv => upsert d kv.1 (decodeArgValue en kv.2)) data := by
  unfold parseMCPArgs
  congr 1
  funext d kv
  unfold decodeArgValue
  cases en with
  | false => rfl
  | true => cases jsonDecode kv.2 <;> rfl

theorem envArgsOf_keys (args : List String) (env : List (String × String)) :
    (envArgsOf args env).map Prod.fst =
      args.filter (fun a => (alookup env (upperStr a)).isSome) := by
  induction args with
  | nil => rfl
  | cons a rest ih =>
    unfold envArgsOf at ih ⊢
    cases hl : alookup env (upperStr a) with
    | none => simp [List.filterMap_cons, List.filter_cons, hl, ih]
    | some w => simp [List.filterMap_cons, List.filter_cons, hl, ih]

theorem envArgsOf_keys_nodup {args : List String} {env : List (String × String)}
    (h : args.Nodup) : ((envArgsOf args env).map Prod.fst).Nodup := by
  rw [envArgsOf_keys]
  exact h.filter _

theorem mem_envArgsOf {args : List String} {env : List (String × String)}
    {a v : String} :
    (a, v) ∈ envArgsOf args env ↔ a ∈ args ∧ alookup env (upperStr a) = some v := by
  unfold envArgsOf
  rw [List.mem_filterMap]
  constructor
  · rintro ⟨x, hx, hfx⟩
    cases hl : alookup env (upperStr x) with
    | none => rw [hl] at hfx; cases hfx
    | some w =>
      rw [hl] at hfx
      replace hfx : some (x, w) = some (a, v) := hfx
      injection hfx with hfx
      injection hfx with h1 h2
      subst h1; subst h2
      exact ⟨hx, hl⟩
  · rintro ⟨ha, hl⟩
    exact ⟨a, ha, by rw [hl]; rfl⟩

theorem dropWhile_all_space {l : List Char} (h : l.all isSpaceChar) :
    l.dropWhile isSpaceChar = [] := by
  induction l with
  | nil => rfl
  | cons c cs ih =>
    rw [List.all_cons, Bool.and_eq_true] at h
    rw [List.dropWhile_cons_of_pos h.1]
    exact ih h.2

theorem trimSpace_whitespace {s : String} (h : isWhitespaceOnly s) :
    trimSpace s = "" := by
  unfold trimSpace
  unfold isWhitespaceOnly at h
  rw [dropWhile_all_space h]
  rfl

theorem transGen_head_step {α : Type} {R : α → α → Prop} {a b : α}
    (h : Relation.TransGen R a b) : ∃ y, R a y := by
  induction h with
  | single hs => exact ⟨_, hs⟩
  | tail _ _ ih => exact ih

theorem transGen_last_step {α : Type} {R : α → α → Prop} {a b : α}
    (h : Relation.TransGen R a b) : ∃ y, R y b := by
  cases h with
  | single hs => exact ⟨_, hs⟩
  | tail _ hs => exact ⟨_, hs⟩

theorem resolveRef_some_inv {tmpl : Tmpl} {m : String} {b : Node}
    (h : resolveRef tmpl m = some b) :
    alookup tmpl m = some b ∨ alookup tmpl (m ++ templateExt) = some b := by
  unfold resolveRef at h
  cases hl : alookup tmpl m with
  | some t =>
    rw [hl] at h
    replace h : some t = some b := h
    cases h
    exact Or.inl rfl
  | none =>
    rw [hl] at h
    replace h : (if hasTmplExt m = true then none
      else alookup tmpl (m ++ templateExt)) = some b := h
    by_cases hext : hasTmplExt m = true
    · rw [if_pos hext] at h; cases h
    · rw [if_neg hext] at h
      exact Or.inr h

/-- A decidable closedness condition on a parsed directory: every
partial-inclusion reference written in the root tree or in any loaded
template resolves. -/
def ClosedDir (tmpl : Tmpl) (root : Node) : Prop :=
  (∀ n ∈ root.refs, (resolveRef tmpl n).isSome) ∧
  (∀ kb ∈ tmpl, ∀ n ∈ kb.2.refs, (resolveRef tmpl n).isSome)

instance (tmpl : Tmpl) (root : Node) : Decidable (ClosedDir tmpl root) := by
  unfold ClosedDir
  infer_instance

theorem closedDir_reach {tmpl : Tmpl} {root : Node} (hc : ClosedDir tmpl root) :
    ∀ n, ReachesFrom tmpl root n → (resolveRef tmpl n).isSome := by
  intro n hn
  induction hn with
  | base hb => exact hc.1 _ hb
  | step hm hs ih =>
    obtain ⟨b, hres, hrb⟩ := hs
    rcases resolveRef_some_inv hres with hl | hl
    · exact hc.2 _ (alookup_mem hl) _ hrb
    · exact hc.2 _ (alookup_mem hl) _ hrb

/-- `extractPromptArgumentsFromTemplate` succeeds only through a successful
top-level walk of the resolved target. -/
theorem extract_ok_ex {tmpl : Tmpl} {nm : String} {args : List String}
    (h : extractPromptArgumentsFromTemplate tmpl nm = .ok args) :
    ∃ root r, lookupTarget tmpl nm = some root ∧
      walkNodes tmpl builtInFields (extractFuel tmpl root) root ⟨[], []⟩ [] = .ok r ∧
      args = r.argsMap := by
  cases hroot : lookupTarget tmpl nm with
  | none =>
    exfalso
    unfold extractPromptArgumentsFromTemplate at h
    unfold lookupTarget at hroot
    cases hl : alookup tmpl nm with
    | some t =>
      rw [hl] at hroot
      replace hroot : some t = none := hroot
      cases hroot
    | none =>
      rw [hl] at h
      rw [hl] at hroot
      replace h : (if hasTmplExt nm = true then
          Except.error ("template \"" ++ nm ++ "\" not found")
        else
          match alookup tmpl (nm ++ templateExt) with
          | some t =>
            (walkNodes tmpl builtInFields (extractFuel tmpl t) t ⟨[], []⟩ []).map
              (fun s => s.argsMap)
          | none =>
            .error ("template \"" ++ nm ++ "\" or \"" ++
              nm ++ templateExt ++ "\" not found")) = .ok args := h
      replace hroot : (if hasTmplExt nm = true then none
        else alookup tmpl (nm ++ templateExt)) = none := hroot
      by_cases hext : hasTmplExt nm = true
      · rw [if_pos hext] at h; cases h
      · rw [if_neg hext] at h
        rw [if_neg hext] at hroot
        rw [hroot] at h
        cases h
  | some root =>
    rw [extract_eq_run hroot] at h
    cases hw : walkNodes tmpl builtInFields (extractFuel tmpl root) root ⟨[], []⟩ [] with
    | error e => rw [hw] at h; cases h
    | ok r =>
      rw [hw] at h
      replace h : Except.ok r.argsMap = Except.ok args := h
      cases h
      exact ⟨root, r, rfl, hw, rfl⟩


/-! ### The claims -/

/-- The parsed directory of the repository's own test scenario
`template with used partial only`: the prompt references partial
`_header` while the loaded partial files are `header.tmpl` and
`footer.tmpl`, so the reference resolves neither bare nor with the
extension. -/
private def c2Main : Node :=
  .listNode [.templateNode "_header"
      (.pipeNode [.command [.identifier "dict", .stringConst "role", .field ["role"],
        .stringConst "task", .field ["task"]]]),
    .text "User: ", .action (.pipeNode [.command [.field ["username"]]])]

private def tmplC2 : Tmpl :=
  [("template_with_used_partial_only.tmpl", c2Main),
   ("header.tmpl", .listNode [.text "You are ",
      .action (.pipeNode [.command [.field ["role"]]]), .text " doing ",
      .action (.pipeNode [.command [.field ["task"]]])]),
   ("footer.tmpl", .listNode [.text "End with ",
      .action (.pipeNode [.command [.field ["conclusion"]]])])]

/-- C2 (code bug): the spec says a partial-inclusion reference whose target
is not loaded contributes no variables and is not an error, and the
repository's own test `template with used partial only` expects success with
`[role, task, username]`; the current `walkNodes` (parser lines 209-211)
instead returns `referenced template %q not found in %q`, so
`ExtractPromptArgumentsFromTemplate` fails on that very scenario. -/
theorem c2_unresolved_reference_errors :
    extractPromptArgumentsFromTemplate tmplC2 "template_with_used_partial_only" =
      .error (missingErrMsg "_header") := rfl

/-- C3 (confirmed): when `loadServerPrompts` fails — a parse failure, an
unreadable directory or file, a missing template, a cycle, or any extraction
failure — `reloadPrompts` returns the wrapped error and the registry goes
through no collaborator operation at all: the only observable registry state
is the previous one, which keeps serving. -/
theorem c3_reload_error_leaves_registry (st : PromptsServerState)
    {inp : LoadInput} {e : String} (h : loadServerPrompts inp = .error e) :
    reloadPrompts inp st = .error ("load server prompts: " ++ e) ∧
    reloadObservableStates inp st = [st.mcpPrompts] := by
  refine ⟨?_, ?_⟩
  · unfold reloadPrompts
    rw [h]
  · unfold reloadObservableStates
    rw [h]

private def inpC3 : LoadInput :=
  { parseDirResult := .ok exCycleTmpl,
    readDirResult := .ok [⟨"p.tmpl", true, .ok "hello"⟩],
    env := [] }

private def stC3 : PromptsServerState :=
  { mcpPrompts := [ServerPrompt.mk "old" "serving" ["x"] [] "old.tmpl"],
    registeredPrompts := ["old"] }

private def eC3 : String :=
  "extract prompt arguments from \"p.tmpl\" template file: " ++
    cycleErrMsg ["_a", "_b", "_c", "_a"]

theorem c3_reload_error_witness :
    reloadPrompts inpC3 stC3 = .error ("load server prompts: " ++ eC3) ∧
    reloadObservableStates inpC3 stC3 = [stC3.mcpPrompts] :=
  c3_reload_error_leaves_registry stC3
    (show loadServerPrompts inpC3 = .error eC3 from rfl)

/-- C4 (corrected): with JSON decoding enabled every argument whose whole
string is one JSON value — booleans, numbers, null, arrays, objects, and
also quoted strings — is replaced by the decoded value; only on decode
failure is the original string kept; with decoding disabled every value is
kept as the original string.  The claim's assertion that a quoted-string
input such as `"Alice"` is kept unchanged is false: it decodes to the
unquoted payload (see the counterexample). -/
theorem c4_json_argument_decoding {args : List (String × String)}
    (hnd : (args.map Prod.fst).Nodup) (data : List (String × JValue)) :
    (∀ k v, (k, v) ∈ args →
      alookup (parseMCPArgs args true data) k = some (decodeArgValue true v)) ∧
    (∀ k v, (k, v) ∈ args →
      alookup (parseMCPArgs args false data) k = some (.str v)) ∧
    (∀ (en : Bool) (k : String), k ∉ args.map Prod.fst →
      alookup (parseMCPArgs args en data) k = alookup data k) := by
  refine ⟨?_, ?_, ?_⟩
  · intro k v hm
    rw [parseMCPArgs_eq_fold]
    exact alookup_foldl_upsert_mem (fun x w => decodeArgValue true w) hm hnd _
  · intro k v hm
    rw [parseMCPArgs_eq_fold]
    exact alookup_foldl_upsert_mem (fun x w => decodeArgValue false w) hm hnd _
  · intro en k hk
    rw [parseMCPArgs_eq_fold]
    exact alookup_foldl_upsert_notmem (fun x w => decodeArgValue en w) hk _

/-- C4 counterexample: the quoted-string input `"Alice"` is a valid JSON
value, so with decoding enabled it is replaced by the unquoted payload
`Alice` instead of being kept unchanged as the claim states. -/
theorem c4_quoted_string_counterexample :
    parseMCPArgs [("name", "\"Alice\"")] true [] = [("name", .str "Alice")] ∧
    parseMCPArgs [("name", "\"Alice\"")] true [] ≠ [("name", .str "\"Alice\"")] := by
  refine ⟨rfl, ?_⟩
  intro h
  rw [show parseMCPArgs [("name", "\"Alice\"")] true [] =
    [("name", JValue.str "Alice")] from rfl] at h
  have h2 : JValue.str "Alice" = JValue.str "\"Alice\"" :=
    congrArg (fun l => (l.headD ("", JValue.null)).2) h
  injection h2 with h3
  exact absurd h3 (by decide)

theorem c4_json_argument_decoding_witness :
    alookup (parseMCPArgs [("age", "30"), ("note", "John")] true []) "age" =
      some (.num "30") ∧
    alookup (parseMCPArgs [("age", "30"), ("note", "John")] true []) "note" =
      some (.str "John") ∧
    alookup (parseMCPArgs [("flag", "true")] false []) "flag" =
      some (.str "true") := by
  have h := c4_json_argument_decoding
    (show (([("age", "30"), ("note", "John")] : List (String × String)).map
      Prod.fst).Nodup by decide) ([] : List (String × JValue))
  have h2 := c4_json_argument_decoding
    (show (([("flag", "true")] : List (String × String)).map Prod.fst).Nodup by decide)
    ([] : List (String × JValue))
  refine ⟨?_, ?_, ?_⟩
  · exact h.1 "age" "30" (by decide)
  · exact h.1 "note" "John" (by decide)
  · exact h2.2.1 "flag" "true" (by decide)

/-- C5 (confirmed): in the data map the handler passes to the render
collaborator, a caller-supplied argument always wins (decoded per the JSON
mode); an environment default (captured from the variable named by the
upper-cased argument name) applies exactly to names the caller did not
supply; and the built-in date value survives only when neither a caller
argument nor an environment default covers the name `date`. -/
theorem c5_argument_precedence (env : List (String × String)) (dateVal : String)
    (en : Bool) {args : List String} {requestArgs : List (String × String)}
    (hndr : (requestArgs.map Prod.fst).Nodup) (hnda : args.Nodup) :
    (∀ k v, (k, v) ∈ requestArgs →
      alookup (handlerData dateVal (envArgsOf args env) en requestArgs) k =
        some (decodeArgValue en v)) ∧
    (∀ k ev, k ∉ requestArgs.map Prod.fst →
      alookup (envArgsOf args env) k = some ev →
      alookup (handlerData dateVal (envArgsOf args env) en requestArgs) k =
        some (.str ev)) ∧
    ("date" ∉ requestArgs.map Prod.fst →
      alookup (envArgsOf args env) "date" = none →
      alookup (handlerData dateVal (envArgsOf args env) en requestArgs) "date" =
        some (.str dateVal)) ∧
    (∀ a v, (a, v) ∈ envArgsOf args env ↔
      a ∈ args ∧ alookup env (upperStr a) = some v) := by
  have hh : handlerData dateVal (envArgsOf args env) en requestArgs =
      parseMCPArgs requestArgs en
        ((envArgsOf args env).foldl (fun d kv => upsert d kv.1 (.str kv.2))
          [("date", .str dateVal)]) := rfl
  refine ⟨?_, ?_, ?_, fun a v => mem_envArgsOf⟩
  · intro k v hm
    rw [hh, parseMCPArgs_eq_fold]
    exact alookup_foldl_upsert_mem (fun x w => decodeArgValue en w) hm hndr _
  · intro k ev hk hl
    rw [hh, parseMCPArgs_eq_fold,
      alookup_foldl_upsert_notmem (fun x w => decodeArgValue en w) hk _]
    exact alookup_foldl_upsert_mem (fun x w => JValue.str w) (alookup_mem hl)
      (envArgsOf_keys_nodup hnda) _
  · intro hk hl
    rw [hh, parseMCPArgs_eq_fold,
      alookup_foldl_upsert_notmem (fun x w => decodeArgValue en w) hk _]
    have hnone : "date" ∉ (envArgsOf args env).map Prod.fst := by
      intro hmem
      obtain ⟨v, hv⟩ := alookup_keys_ex hmem
      rw [hl] at hv
      cases hv
    rw [alookup_foldl_upsert_notmem (fun x w => JValue.str w) hnone _]
    rfl

private def envC5 : List (String × String) := [("CITY", "Paris"), ("NAME", "Ignored")]

theorem c5_argument_precedence_witness :
    alookup (handlerData "2026-01-01" (envArgsOf ["city", "name"] envC5) false
      [("name", "Ada")]) "name" = some (.str "Ada") ∧
    alookup (handlerData "2026-01-01" (envArgsOf ["city", "name"] envC5) false
      [("name", "Ada")]) "city" = some (.str "Paris") ∧
    alookup (handlerData "2026-01-01" (envArgsOf ["city", "name"] envC5) false
      [("name", "Ada")]) "date" = some (.str "2026-01-01") := by
  have h := c5_argument_precedence envC5 "2026-01-01" false
    (show (([("name", "Ada")] : List (String × String)).map Prod.fst).Nodup by decide)
    (show (["city", "name"] : List String).Nodup by decide)
  refine ⟨?_, ?_, ?_⟩
  · exact h.1 "name" "Ada" (by decide)
  · exact h.2.1 "city" "Paris" (by decide) rfl
  · exact h.2.2.1 (by decide) rfl

/-- C6 (confirmed): whenever `ExtractPromptArgumentsFromTemplate` succeeds,
the returned list is duplicate-free, every name in it is its own lower-case
form (case variants are merged), and the built-in name `date` never appears,
in whatever case it was written. -/
theorem c6_argument_set_shape {tmpl : Tmpl} {nm : String} {args : List String}
    (h : extractPromptArgumentsFromTemplate tmpl nm = .ok args) :
    args.Nodup ∧ (∀ x ∈ args, lowerStr x = x) ∧ "date" ∉ args := by
  obtain ⟨root, r, hroot, hw, hargs⟩ := extract_ok_ex h
  have hc := extract_characterization hroot h
  exact ⟨hc.1, hc.2.1, hc.2.2.1⟩

theorem c6_argument_set_shape_witness :
    (["username"] : List String).Nodup ∧
    (∀ x ∈ (["username"] : List String), lowerStr x = x) ∧
    "date" ∉ (["username"] : List String) :=
  c6_argument_set_shape
    (show extractPromptArgumentsFromTemplate [("d.tmpl", exDate)] "d" =
      .ok ["username"] from rfl)

/-- C7 (confirmed): the variables a successful extraction returns are exactly
those of the target tree and of the bodies of transitively reachable
resolved partials — so a variable inside any branch counts, and a variable
only inside an unreferenced partial never appears — and the conditional,
loop and scoped-binding constructs contribute their controlling pipeline and
both branches, the else/empty branch included. -/
theorem c7_branch_and_partial_variables {tmpl : Tmpl} {nm : String} {root : Node}
    {args : List String} (hroot : lookupTarget tmpl nm = some root)
    (h : extractPromptArgumentsFromTemplate tmpl nm = .ok args) :
    (∀ x, x ∈ args ↔ (x ∈ root.varsB builtInFields ∨
      ∃ n, ReachesFrom tmpl root n ∧ x ∈ varsRes builtInFields tmpl n)) ∧
    (∀ p l e, Node.varsB builtInFields (.ifNode p l e) =
      p.varsB builtInFields ++ l.varsB builtInFields ++ e.varsB builtInFields) ∧
    (∀ p l e, Node.varsB builtInFields (.rangeNode p l e) =
      p.varsB builtInFields ++ l.varsB builtInFields ++ e.varsB builtInFields) ∧
    (∀ p l e, Node.varsB builtInFields (.withNode p l e) =
      p.varsB builtInFields ++ l.varsB builtInFields ++ e.varsB builtInFields) := by
  refine ⟨(extract_characterization hroot h).2.2.2, ?_, ?_, ?_⟩ <;>
    (intro p l e; rfl)

private def c7Root : Node :=
  .listNode [.templateNode "_used" .dot,
    .action (.pipeNode [.command [.field ["main"]]])]

private def tmplC7 : Tmpl :=
  [("p.tmpl", c7Root),
   ("_used.tmpl", .ifNode (.pipeNode [.command [.field ["cond"]]])
      (.action (.pipeNode [.command [.field ["thenvar"]]]))
      (.action (.pipeNode [.command [.field ["elsevar"]]]))),
   ("_unused.tmpl", .action (.pipeNode [.command [.field ["unusedvar"]]]))]

theorem c7_branch_and_partial_variables_witness :
    extractPromptArgumentsFromTemplate tmplC7 "p" =
      .ok ["cond", "thenvar", "elsevar", "main"] ∧
    "elsevar" ∈ (["cond", "thenvar", "elsevar", "main"] : List String) ∧
    "unusedvar" ∉ (["cond", "thenvar", "elsevar", "main"] : List String) := by
  have h := c7_branch_and_partial_variables
    (show lookupTarget tmplC7 "p" = some c7Root from rfl)
    (show extractPromptArgumentsFromTemplate tmplC7 "p" =
      .ok ["cond", "thenvar", "elsevar", "main"] from rfl)
  refine ⟨rfl, ?_, by decide⟩
  exact (h.1 "elsevar").mpr
    (Or.inr ⟨"_used", .base (by decide), by decide⟩)

/-- C9 (confirmed): a chained field reference contributes only its first
segment: the walker and the variable collector treat `.config.timeout`
exactly as `.config`, and everything a successful extraction returns comes
from such first segments of the root or of reachable resolved partials. -/
theorem c9_first_segment_only {tmpl : Tmpl} {nm : String} {root : Node}
    {args : List String} (hroot : lookupTarget tmpl nm = some root)
    (h : extractPromptArgumentsFromTemplate tmpl nm = .ok args) :
    (∀ (bi : List String) (fuel : Nat) (s : WalkState) (path : List String)
        (i : String) (rest : List String),
      walkNodes tmpl bi (fuel + 1) (.field (i :: rest)) s path =
        walkNodes tmpl bi (fuel + 1) (.field [i]) s path) ∧
    (∀ (i : String) (rest : List String),
      Node.varsB builtInFields (.field (i :: rest)) =
        Node.varsB builtInFields (.field [i])) ∧
    (∀ x ∈ args, x ∈ root.varsB builtInFields ∨
      ∃ n, ReachesFrom tmpl root n ∧ x ∈ varsRes builtInFields tmpl n) := by
  refine ⟨?_, ?_, ?_⟩
  · intro bi fuel s path i rest
    rfl
  · intro i rest
    rfl
  · intro x hx
    exact ((extract_characterization hroot h).2.2.2 x).mp hx

private def c9Root : Node :=
  .listNode [.action (.pipeNode [.command [.field ["config", "timeout"]]])]

private def tmplC9 : Tmpl := [("c.tmpl", c9Root)]

theorem c9_first_segment_witness :
    extractPromptArgumentsFromTemplate tmplC9 "c" = .ok ["config"] ∧
    Node.varsB builtInFields (.field ["config", "timeout"]) = ["config"] ∧
    ("config" ∈ Node.varsB builtInFields c9Root ∨
      ∃ n, ReachesFrom tmplC9 c9Root n ∧
        "config" ∈ varsRes builtInFields tmplC9 n) := by
  have h := c9_first_segment_only
    (show lookupTarget tmplC9 "c" = some c9Root from rfl)
    (show extractPromptArgumentsFromTemplate tmplC9 "c" = .ok ["config"] from rfl)
  exact ⟨rfl, rfl, h.2.2 "config" (by decide)⟩

/-- C10 (confirmed): when the render collaborator succeeds, the handler
returns exactly one message, of role `user`, whose text is the rendered
output with leading and trailing whitespace trimmed; a whitespace-only
rendering therefore becomes the empty string. -/
theorem c10_trimmed_single_message (templateName description : String)
    (render : List (String × JValue) → Except String String)
    (envArgs : List (String × String)) (en : Bool) (dateVal : String)
    (requestArgs : List (String × String)) {out : String}
    (h : render (handlerData dateVal envArgs en requestArgs) = .ok out) :
    makeMCPHandler render templateName description envArgs en dateVal requestArgs =
      .ok (GetPromptResult.mk description [PromptMessage.mk "user" (trimSpace out)]) ∧
    (∀ w : String, isWhitespaceOnly w → trimSpace w = "") := by
  refine ⟨?_, fun w hw => trimSpace_whitespace hw⟩
  unfold makeMCPHandler
  rw [h]

theorem c10_trimmed_single_message_witness :
    makeMCPHandler (fun _ => .ok "  hello world\n") "t" "greets" [] false
      "2026-01-01" [] =
      .ok (GetPromptResult.mk "greets" [PromptMessage.mk "user" "hello world"]) ∧
    trimSpace " \x0b\n\t " = "" := by
  have h := c10_trimmed_single_message "t" "greets"
    (fun _ => (Except.ok "  hello world\n" : Except String String)) [] false
    "2026-01-01" [] rfl
  exact ⟨h.1, h.2 " \x0b\n\t " rfl⟩


/-- The root tree of the diamond directory (`p.tmpl`). -/
private def exDiamondRoot : Node :=
  .listNode [.templateNode "_left" .dot, .templateNode "_right" .dot]

/-- C1 (corrected): under the proviso — absent from the claim — that every
partial-inclusion reference of the directory resolves, extraction fails if
and only if the reference graph reachable from the target contains a cycle;
every failure is the structured message `cyclic partial reference detected:
...` whose reported chain is a real reference path ending by repeating a
name visited earlier on it; and every success (diamonds included) returns a
duplicate-free list holding exactly the variables of the root and of each
reachable resolved partial, so a shared partial's variables appear once.
Without the proviso the claim is false: an acyclic directory with one
dangling reference makes extraction fail (see the counterexample). -/
theorem c1_cycle_detection {tmpl : Tmpl} {nm : String} {root : Node}
    (hroot : lookupTarget tmpl nm = some root)
    (hclosed : ClosedDir tmpl root) :
    ((∃ e, extractPromptArgumentsFromTemplate tmpl nm = .error e) ↔
      CycleReachable tmpl root) ∧
    (∀ e, extractPromptArgumentsFromTemplate tmpl nm = .error e →
      ∃ p' nm', e = cycleErrMsg (p' ++ [nm']) ∧ nm' ∈ p' ∧
        List.Chain' (RefStep tmpl) (p' ++ [nm'])) ∧
    (∀ args, extractPromptArgumentsFromTemplate tmpl nm = .ok args →
      args.Nodup ∧
      ∀ x, x ∈ args ↔ (x ∈ root.varsB builtInFields ∨
        ∃ n, ReachesFrom tmpl root n ∧ x ∈ varsRes builtInFields tmpl n)) := by
  have hiff := extract_cycle_iff hroot (closedDir_reach hclosed)
  refine ⟨hiff.1, hiff.2, ?_⟩
  intro args hok
  have hc := extract_characterization hroot hok
  exact ⟨hc.1, hc.2.2.2⟩

/-- An acyclic directory with a dangling reference: `a.tmpl` references the
partial `nope`, which no loaded template provides. -/
private def c1xRoot : Node := .listNode [.templateNode "nope" .dot]

private def tmplC1x : Tmpl := [("a.tmpl", c1xRoot)]

/-- Every edge of the reference graph of `tmplC1x` points at `nope`. -/
theorem c1x_refstep_target {m r : String} (h : RefStep tmplC1x m r) :
    r = "nope" := by
  obtain ⟨b, hres, hrb⟩ := h
  have hb : b = c1xRoot := by
    rcases resolveRef_some_inv hres with hl | hl
    · rcases alookup_cons_inv hl with ⟨h1, h2⟩ | hl'
      · exact h2
      · simp [alookup] at hl'
    · rcases alookup_cons_inv hl with ⟨h1, h2⟩ | hl'
      · exact h2
      · simp [alookup] at hl'
  subst hb
  rw [show Node.refs c1xRoot = ["nope"] from rfl] at hrb
  simpa using hrb

/-- C1 counterexample: the reference graph of `tmplC1x` is acyclic (its only
edges end at `nope`, which has no outgoing edge), yet resolution of the
prompt fails — refuting the claim's assertion that resolution succeeds for
every acyclic graph. -/
theorem c1_acyclic_failure_counterexample :
    ¬ CycleReachable tmplC1x c1xRoot ∧
    extractPromptArgumentsFromTemplate tmplC1x "a" =
      .error (missingErrMsg "nope") := by
  refine ⟨?_, rfl⟩
  rintro ⟨n, hreach, htg⟩
  have hn : n = "nope" := by
    obtain ⟨y, hy⟩ := transGen_last_step htg
    exact c1x_refstep_target hy
  subst hn
  obtain ⟨y, hy⟩ := transGen_head_step htg
  obtain ⟨b, hres, hmem⟩ := hy
  rw [show resolveRef tmplC1x "nope" = none from rfl] at hres
  cases hres

theorem c1_cycle_detection_witness :
    ClosedDir exDiamondTmpl exDiamondRoot ∧
    (¬ CycleReachable exDiamondTmpl exDiamondRoot) ∧
    extractPromptArgumentsFromTemplate exDiamondTmpl "p" =
      .ok ["lvar", "svar", "rvar"] ∧
    (["lvar", "svar", "rvar"] : List String).Nodup := by
  have h := c1_cycle_detection
    (show lookupTarget exDiamondTmpl "p" = some exDiamondRoot from rfl)
    (show ClosedDir exDiamondTmpl exDiamondRoot by decide)
  refine ⟨by decide, ?_, rfl, by decide⟩
  intro hcyc
  obtain ⟨e, he⟩ := h.1.mpr hcyc
  rw [show extractPromptArgumentsFromTemplate exDiamondTmpl "p" =
    .ok ["lvar", "svar", "rvar"] from rfl] at he
  cases he

/-- The registry after the delete step of a successful reload (line 565 of
the server file; the delete is skipped on the very first load, when nothing
was registered yet). -/
def reloadMid (st : PromptsServerState) : List ServerPrompt :=
  if st.registeredPrompts.length > 0 then
    deletePrompts st.mcpPrompts st.registeredPrompts
  else st.mcpPrompts

/-- C8 (corrected): a successful reload replaces the registry through two
separate collaborator operations — `DeletePrompts` of the previously
registered names, then `AddPrompts` of the new list — not one atomic
reference swap: the registry passes through the intermediate state
`reloadMid st`, which a concurrent request can observe and which in general
is neither the old nor the new prompt set (see the counterexample); a failed
reload touches the registry not at all. -/
theorem c8_two_step_replacement (st : PromptsServerState) {inp : LoadInput}
    {news : List ServerPrompt} (h : loadServerPrompts inp = .ok news) :
    reloadObservableStates inp st =
      [st.mcpPrompts, reloadMid st, addPrompts (reloadMid st) news] ∧
    reloadPrompts inp st = .ok (PromptsServerState.mk
      (addPrompts (reloadMid st) news) (news.map (fun p => p.name))) := by
  refine ⟨?_, ?_⟩
  · unfold reloadObservableStates reloadMid
    rw [h]
  · unfold reloadPrompts reloadMid
    rw [h]

private def spOld : ServerPrompt := ServerPrompt.mk "old" "" [] [] "old.tmpl"

private def spNew : ServerPrompt := ServerPrompt.mk "new" "" [] [] "new.tmpl"

private def inpC8 : LoadInput :=
  { parseDirResult := .ok [("new.tmpl", .text "hi")],
    readDirResult := .ok [⟨"new.tmpl", true, .ok "hi"⟩],
    env := [] }

private def stC8 : PromptsServerState :=
  { mcpPrompts := [spOld], registeredPrompts := ["old"] }

/-- C8 counterexample: on this successful reload the observable registry
states are old, empty, new — the middle state is neither the complete old
prompt set nor the complete new one, so a concurrent request is not limited
to the two complete snapshots the claim allows. -/
theorem c8_intermediate_state_counterexample :
    reloadObservableStates inpC8 stC8 = [[spOld], [], [spNew]] ∧
    ([] : List ServerPrompt) ≠ [spOld] ∧
    ([] : List ServerPrompt) ≠ [spNew] := by
  refine ⟨rfl, ?_, ?_⟩ <;> (intro h; cases h)

theorem c8_two_step_replacement_witness :
    reloadObservableStates inpC8 stC8 =
      [stC8.mcpPrompts, reloadMid stC8, addPrompts (reloadMid stC8) [spNew]] ∧
    reloadMid stC8 = [] := by
  have h := c8_two_step_replacement stC8
    (show loadServerPrompts inpC8 = .ok [spNew] from rfl)
  exact ⟨h.1, rfl⟩


end MCPPromptEngine
